import Mathlib

set_option autoImplicit false

/-!
Verification of the client-side data-structure and caching utilities of the
NYUMBATZ repository (`src/utils/caching.ts` and the data-structure classes
bundled with `src/components/VirtualizedPropertyList.tsx`): LRUCache,
MultiLevelCache, SpatialIndex, SearchTrie, BloomFilter and PriorityQueue.

JavaScript `Map` objects are modelled as association lists in insertion
order (first entry = oldest); JS `Set` results are modelled as duplicate-free
lists or `Finset`s; `undefined` returns are modelled as `Option.none`;
`Date.now()` is threaded explicitly as a `now : Nat` argument.
-/

namespace Nyumba

/-! ### Association-list model of a JavaScript `Map` -/

variable {K V : Type} [DecidableEq K]

/-- `Map.has`: does some entry have key `k`? -/
def mapHas (l : List (K × V)) (k : K) : Bool :=
  l.any (fun p => decide (p.1 = k))

/-- `Map.get`: the value of the (unique, in reachable states) entry keyed `k`. -/
def mapFind (l : List (K × V)) (k : K) : Option V :=
  match l with
  | [] => none
  | p :: rest => if p.1 = k then some p.2 else mapFind rest k

/-- `Map.delete`: remove the entry keyed `k` (on the duplicate-free lists a map
can reach, the filter removes exactly that one entry). -/
def mapDel (l : List (K × V)) (k : K) : List (K × V) :=
  l.filter (fun p => decide (p.1 ≠ k))

/-- Keys of the association list, in recency order. -/
def mapKeys (l : List (K × V)) : List K :=
  l.map Prod.fst

/-! ### LRUCache (VirtualizedPropertyList.tsx, `class LRUCache<K, V>`)

`cache : Map<K, V>` in insertion order; the first entry is the least recently
used. -/

structure LRUCache (K V : Type) where
  capacity : Nat
  cache : List (K × V)

/-- `new LRUCache(capacity)`. -/
def LRUCache.empty (K V : Type) (capacity : Nat) : LRUCache K V :=
  ⟨capacity, []⟩

/-- `LRUCache.get`: on a hit, delete the entry and re-insert it at the
most-recent end, returning the value; on a miss return `undefined` (`none`). -/
def LRUCache.get (c : LRUCache K V) (k : K) : Option V × LRUCache K V :=
  match mapFind c.cache k with
  | some v => (some v, ⟨c.capacity, mapDel c.cache k ++ [(k, v)]⟩)
  | none => (none, c)

/-- `LRUCache.set`: update an existing key in most-recent position; otherwise,
when at capacity, first delete the first (least-recently-used) key, then append
the new entry. -/
def LRUCache.set (c : LRUCache K V) (k : K) (v : V) : LRUCache K V :=
  if mapHas c.cache k then
    ⟨c.capacity, mapDel c.cache k ++ [(k, v)]⟩
  else if c.cache.length ≥ c.capacity then
    match c.cache with
    | [] => ⟨c.capacity, [(k, v)]⟩
    | p :: _ => ⟨c.capacity, mapDel c.cache p.1 ++ [(k, v)]⟩
  else
    ⟨c.capacity, c.cache ++ [(k, v)]⟩

/-- `LRUCache.has` (does not touch recency). -/
def LRUCache.hasKey (c : LRUCache K V) (k : K) : Bool :=
  mapHas c.cache k

/-- `LRUCache.delete` (the JS method also returns whether the key was present;
the claims only use the state effect). -/
def LRUCache.del (c : LRUCache K V) (k : K) : LRUCache K V :=
  ⟨c.capacity, mapDel c.cache k⟩

/-- `LRUCache.clear`. -/
def LRUCache.clear (c : LRUCache K V) : LRUCache K V :=
  ⟨c.capacity, []⟩

/-- `LRUCache.size`. -/
def LRUCache.size (c : LRUCache K V) : Nat :=
  c.cache.length

/-- One public LRUCache operation, for quantifying over call sequences. -/
inductive LRUOp (K V : Type) where
  | get (k : K)
  | set (k : K) (v : V)
  | has (k : K)
  | del (k : K)
  | clear

def LRUCache.applyOp (c : LRUCache K V) : LRUOp K V → LRUCache K V
  | .get k => (c.get k).2
  | .set k v => c.set k v
  | .has _ => c
  | .del k => c.del k
  | .clear => c.clear

def LRUCache.applyOps (c : LRUCache K V) (ops : List (LRUOp K V)) : LRUCache K V :=
  ops.foldl LRUCache.applyOp c

/-- Run `set` over a list of (key, value) pairs in order. -/
def LRUCache.setAll (c : LRUCache K V) (news : List (K × V)) : LRUCache K V :=
  news.foldl (fun c' q => c'.set q.1 q.2) c

/-! ### MultiLevelCache (src/utils/caching.ts)

Tier 1 is the in-memory `LRUCache<string, any>`; tiers 2 and 3 are browser
`sessionStorage`/`localStorage`, modelled as ordered key/value lists (possibly
`none` when the browser store is unavailable). JSON serialisation of the
`{data, timestamp, ttl}` envelope is modelled as the identity on well-formed
envelopes, with a `corrupt` constructor for strings that fail `JSON.parse`.
`Date.now()` is an explicit `now` argument. -/

/-- The `{data, timestamp, ttl}` envelope written to tiers 2 and 3. -/
structure CacheEntry (V : Type) where
  data : V
  timestamp : Nat
  ttl : Nat
  deriving DecidableEq

/-- A value resident in a tier-2/3 store: a parsed envelope, or a string on
which `JSON.parse` throws. -/
inductive StoredVal (V : Type) where
  | entry (e : CacheEntry V)
  | corrupt
  deriving DecidableEq

/-- A browser `Storage` object: ordered key/value pairs with unique keys. -/
def Store (V : Type) := List (String × StoredVal V)

/-- `Storage.getItem`. -/
def Store.getItem (s : Store V) (k : String) : Option (StoredVal V) :=
  mapFind s k

/-- `Storage.setItem`: overwrite in place, or append a new slot. -/
def Store.setItem : Store V → String → StoredVal V → Store V
  | [], k, v => [(k, v)]
  | p :: rest, k, v =>
    if p.1 = k then (k, v) :: rest else p :: Store.setItem rest k v

/-- `Storage.removeItem`. -/
def Store.removeItem (s : Store V) (k : String) : Store V :=
  mapDel s k

/-- `key.startsWith(p)`, on the character list (the JS string method). -/
def strStartsWith (s p : String) : Bool :=
  p.data.isPrefixOf s.data

/-- `MultiLevelCache.isValid`: JS first rejects falsy `timestamp`/`ttl` (zero
is falsy) and then checks `now - timestamp < ttl`; on `Nat` inputs the
truncated subtraction agrees with the JS signed subtraction because a clock
earlier than the timestamp gives a negative (hence small) difference in JS and
zero here, and `ttl = 0` is already rejected as falsy. `JSON.parse` failures
never reach `isValid`; a `corrupt` value counts as invalid for the cleanup
sweep, which removes a key on either ground. -/
def isValid (now : Nat) (s : StoredVal V) : Bool :=
  match s with
  | .corrupt => false
  | .entry e =>
    decide (e.timestamp ≠ 0) && decide (e.ttl ≠ 0) &&
      decide (now - e.timestamp < e.ttl)

/-- `cleanupL2Cache`/`cleanupL3Cache`: enumerate the store, collect the keys in
the tier's namespace whose resident value fails to parse or fails `isValid`,
and remove them (other keys, and foreign keys outside the namespace, stay). -/
def cleanupStore (now : Nat) (ns : String) (s : Store V) : Store V :=
  s.filter (fun p => !(strStartsWith p.1 ns && !isValid now p.2))

/-- The `MultiLevelCache` state: tier-1 LRU, optional tier-2/3 stores, the two
key-namespace strings (`l2Prefix`/`l3Prefix` in the source) and default TTL. -/
structure MultiLevelCache (V : Type) where
  l1Cache : LRUCache String V
  l2Cache : Option (Store V)
  l3Cache : Option (Store V)
  l2Pre : String
  l3Pre : String
  defaultTTL : Nat

/-- `new MultiLevelCache(l1Size, l2Prefix, l3Prefix, defaultTTL)` in a browser
context: both stores exist and start empty. -/
def MultiLevelCache.init (V : Type) (l1Size : Nat) (l2P l3P : String)
    (ttl : Nat) : MultiLevelCache V :=
  ⟨LRUCache.empty String V l1Size, some [], some [], l2P, l3P, ttl⟩

/-- Tier-3 leg of `MultiLevelCache.get` (caching.ts lines 76–98): a valid
envelope is promoted into tier 1 and — when session storage exists — into
tier 2 by writing the identical stored string `l3Data`; an expired or corrupt
entry is removed and the get misses. -/
def MultiLevelCache.getL3 (now : Nat) (c : MultiLevelCache V) (key : String) :
    Option V × MultiLevelCache V :=
  match c.l3Cache with
  | none => (none, c)
  | some s3 =>
    match s3.getItem (c.l3Pre ++ key) with
    | none => (none, c)
    | some sv =>
      match sv with
      | .entry e =>
        if isValid now (.entry e) then
          (some e.data,
            { c with
              l1Cache := c.l1Cache.set key e.data
              l2Cache :=
                match c.l2Cache with
                | some s2 => some (s2.setItem (c.l2Pre ++ key) (.entry e))
                | none => none })
        else
          (none, { c with l3Cache := some (s3.removeItem (c.l3Pre ++ key)) })
      | .corrupt =>
        (none, { c with l3Cache := some (s3.removeItem (c.l3Pre ++ key)) })

/-- Tier-2 leg of `MultiLevelCache.get` (caching.ts lines 53–73): a valid
session-storage envelope is promoted into tier 1 and returned; an expired or
corrupt entry is removed and the lookup falls through to tier 3. -/
def MultiLevelCache.getL2 (now : Nat) (c : MultiLevelCache V) (key : String) :
    Option V × MultiLevelCache V :=
  match c.l2Cache with
  | none => MultiLevelCache.getL3 now c key
  | some s2 =>
    match s2.getItem (c.l2Pre ++ key) with
    | none => MultiLevelCache.getL3 now c key
    | some sv =>
      match sv with
      | .entry e =>
        if isValid now (.entry e) then
          (some e.data, { c with l1Cache := c.l1Cache.set key e.data })
        else
          MultiLevelCache.getL3 now
            { c with l2Cache := some (s2.removeItem (c.l2Pre ++ key)) } key
      | .corrupt =>
        MultiLevelCache.getL3 now
          { c with l2Cache := some (s2.removeItem (c.l2Pre ++ key)) } key

/-- `MultiLevelCache.get` (caching.ts lines 46–101): probe tier 1 (with its
recency side effect), then tier 2, then tier 3. -/
def MultiLevelCache.get (now : Nat) (c : MultiLevelCache V) (key : String) :
    Option V × MultiLevelCache V :=
  match c.l1Cache.get key with
  | (some v, l1a) => (some v, { c with l1Cache := l1a })
  | (none, _) => MultiLevelCache.getL2 now c key

/-- `MultiLevelCache.set` (caching.ts lines 107–136): always write the raw
value to tier 1 and a fresh envelope to tier 2; write tier 3 only when
`persistent`. `l2Ok`/`l3Ok` say whether the browser `setItem` call succeeds or
throws a storage-quota error; the catch block runs a cleanup pass of that tier
instead of rethrowing, so `set` is a total function on the model (never throws
to the caller). -/
def MultiLevelCache.set (now : Nat) (c : MultiLevelCache V) (key : String)
    (data : V) (ttl : Nat) (persistent : Bool) (l2Ok l3Ok : Bool) :
    MultiLevelCache V :=
  let env : StoredVal V := .entry ⟨data, now, ttl⟩
  let c1 : MultiLevelCache V := { c with l1Cache := c.l1Cache.set key data }
  let c2 : MultiLevelCache V :=
    match c1.l2Cache with
    | some s2 =>
      if l2Ok then
        { c1 with l2Cache := some (s2.setItem (c1.l2Pre ++ key) env) }
      else
        { c1 with l2Cache := some (cleanupStore now c1.l2Pre s2) }
    | none => c1
  if persistent then
    match c2.l3Cache with
    | some s3 =>
      if l3Ok then
        { c2 with l3Cache := some (s3.setItem (c2.l3Pre ++ key) env) }
      else
        { c2 with l3Cache := some (cleanupStore now c2.l3Pre s3) }
    | none => c2
  else c2

/-- `MultiLevelCache.delete`: remove the key from all three tiers. -/
def MultiLevelCache.delete (c : MultiLevelCache V) (key : String) :
    MultiLevelCache V :=
  { c with
    l1Cache := c.l1Cache.del key
    l2Cache := c.l2Cache.map (fun s2 => s2.removeItem (c.l2Pre ++ key))
    l3Cache := c.l3Cache.map (fun s3 => s3.removeItem (c.l3Pre ++ key)) }

/-- `MultiLevelCache.cleanup` (caching.ts lines 176–227): sweep expired and
corrupt entries out of tiers 2 and 3. Tier 1 is not touched. -/
def MultiLevelCache.cleanup (now : Nat) (c : MultiLevelCache V) :
    MultiLevelCache V :=
  { c with
    l2Cache := c.l2Cache.map (cleanupStore now c.l2Pre)
    l3Cache := c.l3Cache.map (cleanupStore now c.l3Pre) }

/-! ### BloomFilter (VirtualizedPropertyList.tsx, `class BloomFilter`) -/

/-- ToInt32: JavaScript 32-bit signed wrap, as performed by `<< 5` and by
`& 0xffffffff` (in JS, `x & 0xffffffff` coerces through ToInt32, and
`0xffffffff` as an int32 is −1, so the mask is exactly ToInt32). -/
def toInt32 (x : Int) : Int :=
  let m := x % 4294967296
  if m < 2147483648 then m else m - 4294967296

/-- One step of the seeded polynomial hash:
`hash = ((hash << 5) + hash + item.charCodeAt(i)) & 0xffffffff`. -/
def hashStep (h : Int) (code : Nat) : Int :=
  toInt32 (toInt32 (h * 32) + h + code)

/-- The UTF-16 code units of a string, modelled for BMP code points as the
character's code point (the repository only hashes property ids). -/
def strCodes (s : String) : List Nat :=
  s.data.map Char.toNat

/-- `BloomFilter.hash(item, seed)` before the final `Math.abs _ % size`. -/
def jsHash (item : String) (seed : Nat) : Int :=
  (strCodes item).foldl hashStep (seed : Int)

/-- `Math.abs(hash) % this.size`. -/
def hashIndex (size : Nat) (item : String) (seed : Nat) : Nat :=
  (jsHash item seed).natAbs % size

/-- BloomFilter state. The constructor derives `size` and `hashFunctions`
from `(expectedElements, falsePositiveRate)` by the floating-point formulas
`m = ceil(-n·ln p / (ln 2)²)` and `k = ceil((m/n)·ln 2)`; the model quantifies
over the resulting integers. For every `expectedElements ≥ 1` and
`falsePositiveRate ∈ (0, 1)` those formulas give `m ≥ 1` (the well-formedness
hypothesis used by the claims); `bitArray` starts as `new Array(size)` filled
with `false`. -/
structure BloomFilter where
  size : Nat
  hashFunctions : Nat
  bitArray : List Bool

/-- The freshly constructed filter for given derived sizes. -/
def BloomFilter.init (size hashFunctions : Nat) : BloomFilter :=
  ⟨size, hashFunctions, List.replicate size false⟩

/-- `BloomFilter.add(item)`: set the bit at `hash(item, i)` for every seed
`i = 0 .. hashFunctions − 1`. -/
def BloomFilter.add (b : BloomFilter) (item : String) : BloomFilter :=
  { b with
    bitArray :=
      (List.range b.hashFunctions).foldl
        (fun arr i => arr.set (hashIndex b.size item i) true) b.bitArray }

/-- `BloomFilter.mightContain(item)`: true iff all k corresponding bits are
set (an out-of-range JS index reads `undefined`, which is falsy — `getD false`). -/
def BloomFilter.mightContain (b : BloomFilter) (item : String) : Bool :=
  (List.range b.hashFunctions).all
    (fun i => b.bitArray.getD (hashIndex b.size item i) false)

/-- Fold `add` over a list of further items. -/
def BloomFilter.addAll (b : BloomFilter) (items : List String) : BloomFilter :=
  items.foldl BloomFilter.add b

/-! ### SpatialIndex (VirtualizedPropertyList.tsx, `class SpatialIndex`)

JS numbers are modelled as rationals (exact arithmetic — IEEE-754 rounding is
below this abstraction), and the string grid key `"gridLat,gridLng"` as the
integer pair it encodes (the encoding is injective on integers). Buckets
(`Set<string>`) are `Finset String`. -/

/-- In-place update of the entry keyed `k` (a JS `map.get(k)` followed by
mutation of the retrieved object: the slot keeps its position). -/
def mapUpdate (l : List (K × V)) (k : K) (f : V → V) : List (K × V) :=
  match l with
  | [] => []
  | p :: rest => if p.1 = k then (k, f p.2) :: rest else p :: mapUpdate rest k f

structure SpatialIndex where
  gridSize : ℚ
  grid : List ((Int × Int) × Finset String)

/-- `getGridKey(lat, lng)`: `(floor(lat / gridSize), floor(lng / gridSize))`. -/
def SpatialIndex.getGridKey (g : SpatialIndex) (lat lng : ℚ) : Int × Int :=
  (⌊lat / g.gridSize⌋, ⌊lng / g.gridSize⌋)

/-- `addProperty(id, lat, lng)`: create the bucket if missing (appending a new
`Map` slot), then add the id to it. -/
def SpatialIndex.addProperty (g : SpatialIndex) (id : String) (lat lng : ℚ) :
    SpatialIndex :=
  let key := g.getGridKey lat lng
  match mapFind g.grid key with
  | some _ => { g with grid := mapUpdate g.grid key (fun cell => insert id cell) }
  | none => { g with grid := g.grid ++ [(key, {id})] }

/-- `removeProperty(id, lat, lng)`: delete the id from the bucket at the given
coordinates, and delete the bucket itself once it becomes empty. -/
def SpatialIndex.removeProperty (g : SpatialIndex) (id : String) (lat lng : ℚ) :
    SpatialIndex :=
  let key := g.getGridKey lat lng
  match mapFind g.grid key with
  | none => g
  | some cell =>
    let cell2 := cell.erase id
    if cell2.card = 0 then { g with grid := mapDel g.grid key }
    else { g with grid := mapUpdate g.grid key (fun _ => cell2) }

/-- The bucket of a grid cell (`grid.get(key)`, the empty set when absent). -/
def SpatialIndex.cellIds (g : SpatialIndex) (key : Int × Int) : Finset String :=
  match mapFind g.grid key with
  | some cell => cell
  | none => ∅

/-- The loop bounds `for (let i = -gridRadius; i <= gridRadius; i++)`:
the integers −r .. r (empty when r < 0). -/
def gridOffsets (r : Int) : List Int :=
  (List.range (2 * r + 1).toNat).map (fun (n : Nat) => -r + (n : Int))

/-- `findNearby(lat, lng, radiusKm)`: grid radius
`ceil(radiusKm / (gridSize * 111))`, then the union of every bucket whose cell
is reached from `(lat + i·gridSize, lng + j·gridSize)` for offsets i, j in the
inclusive square; the `Set` result deduplicates. -/
def SpatialIndex.findNearby (g : SpatialIndex) (lat lng radiusKm : ℚ) :
    Finset String :=
  let gridRadius : Int := ⌈radiusKm / (g.gridSize * 111)⌉
  (gridOffsets gridRadius).foldl
    (fun (acc : Finset String) (i : Int) =>
      (gridOffsets gridRadius).foldl
        (fun (acc2 : Finset String) (j : Int) =>
          acc2 ∪ g.cellIds (g.getGridKey (lat + (i : ℚ) * g.gridSize)
            (lng + (j : ℚ) * g.gridSize)))
        acc)
    ∅

/-! ### SearchTrie (VirtualizedPropertyList.tsx, `class SearchTrie`)

`TrieNode`: children as a `Map<char, TrieNode>` (association list in insertion
order) plus the `Set` of ids accumulated at the node (a duplicate-free list —
only membership is observable through `search`). -/

inductive TrieNode where
  | mk (children : List (Char × TrieNode)) (propertyIds : List String)

def TrieNode.children : TrieNode → List (Char × TrieNode)
  | .mk cs _ => cs

def TrieNode.propertyIds : TrieNode → List String
  | .mk _ ids => ids

/-- `insertWord`'s loop from the current node: for each character, create the
child if missing (a fresh `Map` slot is appended), descend, and add the id to
the node just entered — so every node along the path except the root
accumulates the id. -/
def TrieNode.insertFrom : TrieNode → List Char → String → TrieNode
  | t, [], _ => t
  | t, ch :: rest, pid =>
    match mapFind t.children ch with
    | some child =>
      .mk (mapUpdate t.children ch
            (fun _ => TrieNode.insertFrom
              (.mk child.children (List.insert pid child.propertyIds)) rest pid))
          t.propertyIds
    | none =>
      .mk (t.children ++
            [(ch, TrieNode.insertFrom (.mk [] (List.insert pid [])) rest pid)])
          t.propertyIds

/-- Descend the exact character path (`search`'s loop). -/
def TrieNode.descend : TrieNode → List Char → Option TrieNode
  | t, [] => some t
  | t, ch :: rest =>
    match mapFind t.children ch with
    | some child => child.descend rest
    | none => none

/-- The ids at the node reached by the path, empty when the path is missing. -/
def TrieNode.found (t : TrieNode) (p : List Char) : List String :=
  match t.descend p with
  | some n => n.propertyIds
  | none => []

/-- `toLowerCase()`, per code point (`Char.toLower`; the repository's indexed
data is ASCII). -/
def lowerStr (s : String) : String :=
  ⟨s.data.map Char.toLower⟩

/-- `title.split(/\s+/)`, modelled by splitting at every whitespace character.
This differs from the regex split only in producing an empty token for each
extra whitespace in a run, and empty tokens are discarded by the `length > 2`
filter either way. -/
def splitWs : List Char → List String
  | [] => [""]
  | c :: rest =>
    if c.isWhitespace then "" :: splitWs rest
    else
      match splitWs rest with
      | w :: ws => (⟨c :: w.data⟩ : String) :: ws
      | [] => [(⟨[c]⟩ : String)]

/-- The document shape `addProperty` consumes. -/
structure PropertyDoc where
  id : String
  title : String
  city : String
  amenities : List String
  deriving DecidableEq

/-- The `words` array of `addProperty`: whitespace-split lowercased title,
the lowercased city (one token), and each lowercased amenity (one token each,
not split). -/
def docWords (d : PropertyDoc) : List String :=
  splitWs (lowerStr d.title).data ++ [lowerStr d.city]
    ++ d.amenities.map lowerStr

structure SearchTrie where
  root : TrieNode

def SearchTrie.empty : SearchTrie :=
  ⟨.mk [] []⟩

/-- `insertWord(word, propertyId)`. -/
def SearchTrie.insertWord (t : SearchTrie) (w : String) (pid : String) :
    SearchTrie :=
  ⟨t.root.insertFrom w.data pid⟩

/-- `addProperty(property)`: index every token longer than 2 characters. -/
def SearchTrie.addProperty (t : SearchTrie) (d : PropertyDoc) : SearchTrie :=
  (docWords d).foldl
    (fun tr w => if w.length > 2 then tr.insertWord w d.id else tr) t

/-- `search(prefix)`: empty for prefixes shorter than 2; otherwise the ids at
the node reached by the lowercased prefix characters. -/
def SearchTrie.search (t : SearchTrie) (p : String) : List String :=
  if p.length < 2 then []
  else t.root.found (lowerStr p).data

/-- Fold `addProperty` over a list of documents. -/
def SearchTrie.addAll (t : SearchTrie) (docs : List PropertyDoc) : SearchTrie :=
  docs.foldl SearchTrie.addProperty t

/-! ### PriorityQueue (VirtualizedPropertyList.tsx, `class PriorityQueue<T>`)

A binary max-heap over an array, modelled as a list; priorities (JS numbers)
are modelled over an arbitrary linear order — only `>=`/`>` comparisons are
performed. Indexing `this.heap[k]` is total in the source because every index
used is in bounds; the model carries the bounds explicitly. -/

structure HeapEntry (T P : Type) where
  item : T
  priority : P
  deriving DecidableEq

/-- The JS array-destructuring swap `[h[i], h[j]] = [h[j], h[i]]`. -/
def listSwap {E : Type} (l : List E) (i j : Nat) : List E :=
  match l[i]?, l[j]? with
  | some a, some b => (l.set i b).set j a
  | _, _ => l

variable {T P : Type} [LinearOrder P]

/-- `heapifyUp`: while the index has a parent whose priority is smaller, swap
upward. `parent(index) = floor((index−1)/2)`, which on the in-bounds indices
the source uses agrees with Nat division. -/
def heapifyUp (l : List (HeapEntry T P)) (i : Nat) : List (HeapEntry T P) :=
  if h : 0 < i ∧ i < l.length then
    have h2 : i < l.length := h.2
    have hp : (i - 1) / 2 < l.length := by omega
    if (l[(i - 1) / 2]).priority ≥ (l[i]).priority then l
    else heapifyUp (listSwap l ((i - 1) / 2) i) ((i - 1) / 2)
  else l
termination_by i
decreasing_by omega

/-- The larger child: `rightIndex` when it exists and strictly beats the left
child, else `leftIndex`. -/
def maxChildIdx (l : List (HeapEntry T P)) (i : Nat)
    (h : 2 * i + 1 < l.length) : Nat :=
  if hr : 2 * i + 2 < l.length then
    if (l[2 * i + 2]).priority > (l[2 * i + 1]).priority then 2 * i + 2
    else 2 * i + 1
  else 2 * i + 1

/-- `heapifyDown`: while a child exists, swap with the larger child when it
beats the current node. -/
def heapifyDown (l : List (HeapEntry T P)) (i : Nat) : List (HeapEntry T P) :=
  if h : 2 * i + 1 < l.length then
    have hi : i < l.length := by omega
    have hm : maxChildIdx l i h < l.length := by
      unfold maxChildIdx
      split
      · split
        · omega
        · omega
      · omega
    if (l[i]).priority ≥ (l[maxChildIdx l i h]).priority then l
    else heapifyDown (listSwap l i (maxChildIdx l i h)) (maxChildIdx l i h)
  else l
termination_by l.length - i
decreasing_by
  have hlen : (listSwap l i (maxChildIdx l i h)).length = l.length := by
    unfold listSwap
    rcases l[i]? with _ | a <;> rcases l[maxChildIdx l i h]? with _ | b <;> simp
  have hgt : i < maxChildIdx l i h := by
    unfold maxChildIdx
    split
    · split
      · omega
      · omega
    · omega
  omega

structure PriorityQueue (T P : Type) where
  heap : List (HeapEntry T P)

def PriorityQueue.empty (T P : Type) : PriorityQueue T P :=
  ⟨[]⟩

/-- `enqueue(item, priority)`: push, then sift the last index up. -/
def PriorityQueue.enqueue (q : PriorityQueue T P) (item : T) (priority : P) :
    PriorityQueue T P :=
  ⟨heapifyUp (q.heap ++ [HeapEntry.mk item priority])
    ((q.heap ++ [HeapEntry.mk item priority]).length - 1)⟩

/-- `dequeue()`: undefined on empty; pop on a singleton; otherwise take the
root's item, move the popped last element to the root and sift it down. -/
def PriorityQueue.dequeue (q : PriorityQueue T P) : Option T × PriorityQueue T P :=
  match q.heap with
  | [] => (none, q)
  | [e] => (some e.item, ⟨[]⟩)
  | e :: rest =>
    (some e.item,
      ⟨heapifyDown (((e :: rest).dropLast).set 0
        ((e :: rest).getLast (by simp))) 0⟩)

/-- `peek()`: the root's item, or undefined. -/
def PriorityQueue.peek (q : PriorityQueue T P) : Option T :=
  match q.heap with
  | [] => none
  | e :: _ => some e.item

def PriorityQueue.size (q : PriorityQueue T P) : Nat :=
  q.heap.length

def PriorityQueue.isEmpty (q : PriorityQueue T P) : Bool :=
  decide (q.heap.length = 0)

/-- Fold `enqueue` over a list of (item, priority) pairs. -/
def PriorityQueue.enqueueAll (q : PriorityQueue T P) (es : List (T × P)) :
    PriorityQueue T P :=
  es.foldl (fun q2 e => q2.enqueue e.1 e.2) q

/-- The max-heap invariant: every non-root entry's priority is at most its
parent's. Stated through optional indexing so out-of-range indices are
vacuous. -/
def IsHeap (l : List (HeapEntry T P)) : Prop :=
  ∀ j a b, 0 < j → l[j]? = some a → l[(j - 1) / 2]? = some b →
    a.priority ≤ b.priority

/-- The sift-up precondition: heap-ordered except that the entry at `i` may be
too large — every other child/parent pair is ordered, and `i`'s parent
dominates `i`'s children. -/
def UpOk (l : List (HeapEntry T P)) (i : Nat) : Prop :=
  (∀ (j : Nat) (a b : HeapEntry T P), 0 < j → j ≠ i → l[j]? = some a →
      l[(j - 1) / 2]? = some b → a.priority ≤ b.priority) ∧
  (∀ (c : Nat) (a b : HeapEntry T P), (c - 1) / 2 = i → 0 < i → 0 < c →
      l[c]? = some a → l[(i - 1) / 2]? = some b → a.priority ≤ b.priority)

/-- The sift-down precondition: heap-ordered except that the entry at `i` may
be too small — every child/parent pair not parented at `i` is ordered, and
`i`'s own parent (when `i` is not the root) dominates `i`'s children. -/
def DownOk (l : List (HeapEntry T P)) (i : Nat) : Prop :=
  (∀ (j : Nat) (a b : HeapEntry T P), 0 < j → (j - 1) / 2 ≠ i → l[j]? = some a →
      l[(j - 1) / 2]? = some b → a.priority ≤ b.priority) ∧
  (∀ (c : Nat) (a b : HeapEntry T P), (c - 1) / 2 = i → 0 < i → 0 < c →
      l[c]? = some a → l[(i - 1) / 2]? = some b → a.priority ≤ b.priority)

/-! ### Map-model lemmas -/

theorem mapHas_nil (k : K) : mapHas ([] : List (K × V)) k = false := rfl

theorem mapHas_cons (p : K × V) (rest : List (K × V)) (k : K) :
    mapHas (p :: rest) k = (decide (p.1 = k) || mapHas rest k) := by
  simp [mapHas, List.any_cons]

theorem mapFind_cons (p : K × V) (rest : List (K × V)) (k : K) :
    mapFind (p :: rest) k = if p.1 = k then some p.2 else mapFind rest k := rfl

omit [DecidableEq K] in
theorem mapKeys_cons (p : K × V) (rest : List (K × V)) :
    mapKeys (p :: rest) = p.1 :: mapKeys rest := rfl

theorem mapHas_iff_mem_keys (l : List (K × V)) (k : K) :
    mapHas l k = true ↔ k ∈ mapKeys l := by
  induction l with
  | nil => simp [mapHas_nil, mapKeys]
  | cons p rest ih =>
    rw [mapHas_cons, mapKeys_cons]
    by_cases h : p.1 = k
    · simp [h]
    · simp [h, ih, Ne.symm h]

theorem mapDel_of_not_mem (l : List (K × V)) (k : K)
    (h : k ∉ mapKeys l) : mapDel l k = l := by
  apply List.filter_eq_self.mpr
  intro p hp
  simp only [ne_eq, decide_eq_true_eq]
  intro he
  apply h
  rw [← he]
  simpa [mapKeys] using List.mem_map_of_mem Prod.fst hp

theorem mapDel_cons_head (p : K × V) (rest : List (K × V))
    (hnd : (mapKeys (p :: rest)).Nodup) : mapDel (p :: rest) p.1 = rest := by
  rw [mapKeys_cons] at hnd
  have h1 : p.1 ∉ mapKeys rest := (List.nodup_cons.mp hnd).1
  show List.filter (fun q => decide (q.1 ≠ p.1)) (p :: rest) = rest
  rw [List.filter_cons_of_neg (by simp)]
  exact mapDel_of_not_mem rest p.1 h1

theorem mapHas_false_of_head (p : K × V) (rest : List (K × V)) (k : K)
    (h : mapHas (p :: rest) k = false) : p.1 ≠ k ∧ mapHas rest k = false := by
  rw [mapHas_cons] at h
  simp only [Bool.or_eq_false_iff, decide_eq_false_iff_not] at h
  exact h

theorem length_mapDel_lt (l : List (K × V)) (k : K)
    (h : mapHas l k = true) : (mapDel l k).length < l.length := by
  apply List.length_filter_lt_length_iff_exists.mpr
  have hmem := (mapHas_iff_mem_keys l k).mp h
  have hx : ∃ x, (k, x) ∈ l := by simpa [mapKeys] using hmem
  rcases hx with ⟨v, hv⟩
  exact ⟨(k, v), hv, by simp⟩

theorem length_mapDel_le (l : List (K × V)) (k : K) :
    (mapDel l k).length ≤ l.length :=
  List.length_filter_le _ _

theorem mapFind_isSome_iff_mapHas (l : List (K × V)) (k : K) :
    (mapFind l k).isSome = mapHas l k := by
  induction l with
  | nil => rfl
  | cons p rest ih =>
    rw [mapFind_cons, mapHas_cons]
    by_cases h : p.1 = k
    · simp [h]
    · simp [h, ih]

/-! ### LRUCache lemmas -/

theorem LRUCache.capacity_set (c : LRUCache K V) (k : K) (v : V) :
    (c.set k v).capacity = c.capacity := by
  unfold LRUCache.set
  split
  · rfl
  · split
    · split <;> rfl
    · rfl

theorem LRUCache.capacity_get (c : LRUCache K V) (k : K) :
    (c.get k).2.capacity = c.capacity := by
  unfold LRUCache.get
  split <;> rfl

theorem LRUCache.size_set_le (c : LRUCache K V) (k : K) (v : V)
    (hcap : 1 ≤ c.capacity) (h : c.size ≤ c.capacity) :
    (c.set k v).size ≤ c.capacity := by
  unfold LRUCache.set
  by_cases h1 : mapHas c.cache k = true
  · simp only [h1, if_true]
    have hlt := length_mapDel_lt c.cache k h1
    simp only [LRUCache.size, List.length_append, List.length_cons,
      List.length_nil] at h ⊢
    omega
  · simp only [h1, if_false, Bool.false_eq_true]
    by_cases h2 : c.cache.length ≥ c.capacity
    · simp only [h2, if_true]
      cases hc : c.cache with
      | nil => simpa [LRUCache.size] using hcap
      | cons p rest =>
        have hhas : mapHas c.cache p.1 = true := by
          rw [hc, mapHas_cons]
          simp
        have hlt := length_mapDel_lt c.cache p.1 hhas
        simp only [LRUCache.size, List.length_append, List.length_cons,
          List.length_nil] at h hlt ⊢
        rw [← hc]
        omega
    · simp only [h2, if_false]
      simp only [LRUCache.size, List.length_append, List.length_cons,
        List.length_nil] at h2 ⊢
      omega

theorem LRUCache.size_get_le (c : LRUCache K V) (k : K)
    (h : c.size ≤ c.capacity) : (c.get k).2.size ≤ c.capacity := by
  unfold LRUCache.get
  cases hf : mapFind c.cache k with
  | none => simpa using h
  | some v =>
    have hhas : mapHas c.cache k = true := by
      rw [← mapFind_isSome_iff_mapHas, hf]
      rfl
    have hlt := length_mapDel_lt c.cache k hhas
    simp only [LRUCache.size, List.length_append, List.length_cons,
      List.length_nil] at h ⊢
    omega

/-- Each public operation preserves the capacity field and the size bound. -/
theorem LRUCache.applyOp_inv (c : LRUCache K V) (op : LRUOp K V)
    (hcap : 1 ≤ c.capacity) (h : c.size ≤ c.capacity) :
    (c.applyOp op).capacity = c.capacity ∧ (c.applyOp op).size ≤ c.capacity := by
  cases op with
  | get k => exact ⟨capacity_get c k, size_get_le c k h⟩
  | set k v => exact ⟨capacity_set c k v, size_set_le c k v hcap h⟩
  | has k => exact ⟨rfl, h⟩
  | del k =>
    refine ⟨rfl, ?_⟩
    simp only [applyOp, del, LRUCache.size] at h ⊢
    exact le_trans (length_mapDel_le c.cache k) h
  | clear => exact ⟨rfl, by simp [applyOp, clear, LRUCache.size]⟩

theorem LRUCache.applyOps_inv (ops : List (LRUOp K V)) (c : LRUCache K V)
    (hcap : 1 ≤ c.capacity) (h : c.size ≤ c.capacity) :
    (c.applyOps ops).capacity = c.capacity ∧ (c.applyOps ops).size ≤ c.capacity := by
  induction ops generalizing c with
  | nil => exact ⟨rfl, h⟩
  | cons op rest ih =>
    have hstep := applyOp_inv c op hcap h
    have := ih (c.applyOp op) (hstep.1 ▸ hcap) (hstep.1 ▸ hstep.2)
    simpa [applyOps, List.foldl_cons, hstep.1] using this

/-- Folding fresh-keyed `set`s over a cache already filled to capacity drops
that many least-recent entries off the front and appends the new entries. -/
theorem LRUCache.setAll_full (news : List (K × V)) (cap : Nat) (l : List (K × V))
    (hlen : l.length = cap) (hnd : (mapKeys l).Nodup)
    (hnewnd : (mapKeys news).Nodup)
    (hfresh : ∀ q ∈ news, q.1 ∉ mapKeys l)
    (hle : news.length ≤ cap) :
    ((⟨cap, l⟩ : LRUCache K V).setAll news).cache = l.drop news.length ++ news := by
  induction news generalizing l with
  | nil => simp [setAll]
  | cons q qs ih =>
    have hcap1 : 1 ≤ cap := le_trans (by simp) hle
    cases l with
    | nil => simp at hlen; omega
    | cons p rest =>
      have hql : q.1 ∉ mapKeys (p :: rest) := hfresh q (by simp)
      have hqhas : mapHas (p :: rest) q.1 = false := by
        rcases hb : mapHas (p :: rest) q.1 with _ | _
        · rfl
        · exact absurd ((mapHas_iff_mem_keys _ _).mp hb) hql
      have hstep : ((⟨cap, p :: rest⟩ : LRUCache K V).set q.1 q.2).cache
          = rest ++ [q] := by
        have hge : (p :: rest).length ≥ cap := by rw [hlen]
        unfold LRUCache.set
        rw [if_neg (by simp [hqhas]), if_pos hge]
        show mapDel (p :: rest) p.1 ++ [(q.1, q.2)] = rest ++ [q]
        rw [mapDel_cons_head p rest hnd]
      have hlen2 : (rest ++ [q]).length = cap := by
        simp at hlen ⊢
        omega
      have hnd2 : (mapKeys (rest ++ [q])).Nodup := by
        have hkeys : mapKeys (rest ++ [q]) = mapKeys rest ++ [q.1] := by
          simp [mapKeys]
        rw [hkeys]
        rw [mapKeys_cons] at hnd hql
        have hr := (List.nodup_cons.mp hnd).2
        simp only [List.mem_cons, not_or] at hql
        refine List.Nodup.append hr (List.nodup_singleton _) ?_
        intro x hx hxq
        simp only [List.mem_singleton] at hxq
        exact hql.2 (hxq ▸ hx)
      have hnewnd2 : (mapKeys qs).Nodup := by
        rw [mapKeys_cons] at hnewnd
        exact (List.nodup_cons.mp hnewnd).2
      have hfresh2 : ∀ r ∈ qs, r.1 ∉ mapKeys (rest ++ [q]) := by
        intro r hr
        have h1 : r.1 ∉ mapKeys (p :: rest) := hfresh r (by simp [hr])
        have h2 : r.1 ≠ q.1 := by
          rw [mapKeys_cons] at hnewnd
          have := (List.nodup_cons.mp hnewnd).1
          intro he
          exact this (he ▸ (by simpa [mapKeys] using List.mem_map_of_mem Prod.fst hr))
        rw [mapKeys_cons] at h1
        simp only [List.mem_cons, not_or] at h1
        have : mapKeys (rest ++ [q]) = mapKeys rest ++ [q.1] := by simp [mapKeys]
        rw [this]
        simp [h1.2, h2]
      have hle2 : qs.length ≤ cap := le_trans (by simp) hle
      have hmain : ((⟨cap, p :: rest⟩ : LRUCache K V).setAll (q :: qs)).cache
          = ((⟨cap, rest ++ [q]⟩ : LRUCache K V).setAll qs).cache := by
        simp only [setAll, List.foldl_cons]
        congr 1
        have hc1 := LRUCache.capacity_set (⟨cap, p :: rest⟩ : LRUCache K V) q.1 q.2
        have : ((⟨cap, p :: rest⟩ : LRUCache K V).set q.1 q.2)
            = (⟨cap, rest ++ [q]⟩ : LRUCache K V) := by
          cases hs : (⟨cap, p :: rest⟩ : LRUCache K V).set q.1 q.2 with
          | mk c2 l2 =>
            have := hstep
            rw [hs] at this hc1
            simp at this hc1
            simp [this, hc1]
        rw [this]
      rw [hmain, ih (rest ++ [q]) hlen2 hnd2 hnewnd2 hfresh2 hle2]
      have hdrop : (rest ++ [q]).drop qs.length = rest.drop qs.length ++ [q] := by
        apply List.drop_append_of_le_length
        have h1 : rest.length + 1 = cap := by simpa using hlen2
        have h2 : qs.length + 1 ≤ cap := by simpa using hle
        omega
      rw [hdrop]
      simp

/-- C4: for every LRUCache of capacity c ≥ 1, after any sequence of
get/set/has/delete/clear operations from the empty cache, size ≤ c; and a set
of a key not already present, issued when size = c, evicts exactly one entry —
the least-recently-used (first) key — before appending the new key in
most-recently-used position, leaving size = c. -/
theorem C4_lru_capacity_invariant_and_eviction (K V : Type) [DecidableEq K]
    (cap : Nat) (hcap : 1 ≤ cap) (ops : List (LRUOp K V))
    (st : LRUCache K V) (k : K) (v : V) (p : K × V) (rest : List (K × V))
    (hstcap : st.capacity = cap) (hsize : st.size = cap)
    (habs : st.hasKey k = false)
    (hnd : (mapKeys st.cache).Nodup)
    (hshape : st.cache = p :: rest) :
    ((LRUCache.empty K V cap).applyOps ops).size ≤ cap ∧
    (st.set k v).cache = rest ++ [(k, v)] ∧
    (st.set k v).size = cap := by
  have hset : (st.set k v).cache = rest ++ [(k, v)] := by
    have hge : st.cache.length ≥ st.capacity := by
      rw [hstcap]
      exact le_of_eq hsize.symm
    unfold LRUCache.set
    rw [if_neg (by rw [LRUCache.hasKey] at habs; simp [habs]), if_pos hge, hshape]
    show mapDel (p :: rest) p.1 ++ [(k, v)] = rest ++ [(k, v)]
    rw [mapDel_cons_head p rest (hshape ▸ hnd)]
  refine ⟨?_, hset, ?_⟩
  · exact (LRUCache.applyOps_inv ops (LRUCache.empty K V cap) hcap
      (Nat.zero_le cap)).2
  · show (st.set k v).cache.length = cap
    rw [hset]
    have h1 : (p :: rest).length = cap := by rw [← hshape]; exact hsize
    simp at h1 ⊢
    omega

/-- C4 witness: capacity 2, three operations from empty, plus a concrete
eviction of the least-recent key (1,1) by setting fresh key 3. -/
theorem C4_witness :
    ((LRUCache.empty Nat Nat 2).applyOps
      [LRUOp.set 1 1, LRUOp.set 2 2, LRUOp.get 1]).size ≤ 2 ∧
    ((⟨2, [(1, 1), (2, 2)]⟩ : LRUCache Nat Nat).set 3 3).cache
      = [(2, 2)] ++ [(3, 3)] ∧
    ((⟨2, [(1, 1), (2, 2)]⟩ : LRUCache Nat Nat).set 3 3).size = 2 :=
  C4_lru_capacity_invariant_and_eviction Nat Nat 2 (by decide)
    [LRUOp.set 1 1, LRUOp.set 2 2, LRUOp.get 1]
    ⟨2, [(1, 1), (2, 2)]⟩ 3 3 (1, 1) [(2, 2)] rfl rfl (by decide) (by decide) rfl

/-- C5 counterexample: capacity c = 2; store keys 1 and 2, `get` key 1
(refreshing it), then `set` c = 2 further distinct fresh keys 3 and 4. The
claim asserts the gotten key 1 is still present, but it has been evicted: the
c-th fresh insertion evicts the refreshed key itself. -/
theorem C5_counterexample :
    ((((((LRUCache.empty Nat Nat 2).set 1 10).set 2 20).get 1).2.set 3 30).set 4
      40).hasKey 1 = false := by decide

/-- C5 (amended): for an LRUCache of capacity c holding c keys, get-ing the
least-recently-used key and then set-ing c − 1 (not c) more distinct fresh keys
keeps the gotten key present, while every other originally stored key —
starting with the next-least-recent — is evicted. -/
theorem C5_amended_refreshed_key_survives (K V : Type) [DecidableEq K]
    (cap : Nat) (st : LRUCache K V) (p : K × V) (tl : List (K × V))
    (news : List (K × V))
    (hstcap : st.capacity = cap) (hshape : st.cache = p :: tl)
    (hsize : st.size = cap)
    (hnd : (mapKeys st.cache).Nodup)
    (hnewlen : news.length = cap - 1)
    (hnewnd : (mapKeys news).Nodup)
    (hfresh : ∀ q ∈ news, q.1 ∉ mapKeys st.cache) :
    ((st.get p.1).2.setAll news).hasKey p.1 = true ∧
    ∀ q ∈ tl, ((st.get p.1).2.setAll news).hasKey q.1 = false := by
  have hndc : (mapKeys (p :: tl)).Nodup := hshape ▸ hnd
  have h1 : tl.length + 1 = cap := by
    have := hsize
    rw [LRUCache.size, hshape] at this
    simpa using this
  have hfind : mapFind st.cache p.1 = some p.2 := by
    rw [hshape, mapFind_cons, if_pos rfl]
  have hget : (st.get p.1).2 = (⟨cap, tl ++ [p]⟩ : LRUCache K V) := by
    unfold LRUCache.get
    rw [hfind]
    show (⟨st.capacity, mapDel st.cache p.1 ++ [(p.1, p.2)]⟩ : LRUCache K V)
      = ⟨cap, tl ++ [p]⟩
    rw [hstcap, hshape, mapDel_cons_head p tl hndc]
  have hp1tl : p.1 ∉ mapKeys tl := by
    rw [mapKeys_cons] at hndc
    exact (List.nodup_cons.mp hndc).1
  have hkeys2 : mapKeys (tl ++ [p]) = mapKeys tl ++ [p.1] := by simp [mapKeys]
  have hlen2 : (tl ++ [p]).length = cap := by simpa using h1
  have hnd2 : (mapKeys (tl ++ [p])).Nodup := by
    rw [hkeys2]
    refine List.Nodup.append ?_ (List.nodup_singleton _) ?_
    · rw [mapKeys_cons] at hndc
      exact (List.nodup_cons.mp hndc).2
    · intro x hx hxp
      simp only [List.mem_singleton] at hxp
      exact hp1tl (hxp ▸ hx)
  have hfresh2 : ∀ q ∈ news, q.1 ∉ mapKeys (tl ++ [p]) := by
    intro q hq
    have := hfresh q hq
    rw [hshape, mapKeys_cons] at this
    simp only [List.mem_cons, not_or] at this
    rw [hkeys2]
    simp only [List.mem_append, List.mem_singleton, not_or]
    exact ⟨this.2, this.1⟩
  have hle2 : news.length ≤ cap := by omega
  have hsetall := LRUCache.setAll_full news cap (tl ++ [p]) hlen2 hnd2 hnewnd
    hfresh2 hle2
  have hdrop : (tl ++ [p]).drop news.length = [p] := by
    have htl : news.length = tl.length := by omega
    rw [htl, List.drop_append_of_le_length (le_refl _), List.drop_length]
    rfl
  have hcache : ((st.get p.1).2.setAll news).cache = p :: news := by
    rw [hget, hsetall, hdrop]
    rfl
  constructor
  · show mapHas ((st.get p.1).2.setAll news).cache p.1 = true
    rw [hcache, mapHas_cons]
    simp
  · intro q hq
    have hq1 : q.1 ∈ mapKeys tl := by
      simpa [mapKeys] using List.mem_map_of_mem Prod.fst hq
    have hqp : q.1 ≠ p.1 := fun he => hp1tl (he ▸ hq1)
    have hqnews : q.1 ∉ mapKeys news := by
      intro hmem
      have hx : ∃ x, (q.1, x) ∈ news := by simpa [mapKeys] using hmem
      rcases hx with ⟨x, hxmem⟩
      have := hfresh (q.1, x) hxmem
      rw [hshape, mapKeys_cons] at this
      simp only [List.mem_cons, not_or] at this
      exact this.2 hq1
    have hnotmem : q.1 ∉ mapKeys (p :: news) := by
      rw [mapKeys_cons]
      simp only [List.mem_cons, not_or]
      exact ⟨hqp, hqnews⟩
    show mapHas ((st.get p.1).2.setAll news).cache q.1 = false
    rw [hcache]
    cases hb : mapHas (p :: news) q.1 with
    | false => rfl
    | true => exact absurd ((mapHas_iff_mem_keys _ _).mp hb) hnotmem

/-- C5 amended witness: capacity 2, stored keys 1 and 2, get key 1, then set
one fresh key 3: key 1 survives and key 2 is evicted. -/
theorem C5_amended_witness :
    (((⟨2, [(1, 10), (2, 20)]⟩ : LRUCache Nat Nat).get 1).2.setAll
      [(3, 30)]).hasKey 1 = true ∧
    ∀ q ∈ [((2 : Nat), (20 : Nat))],
      (((⟨2, [(1, 10), (2, 20)]⟩ : LRUCache Nat Nat).get 1).2.setAll
        [(3, 30)]).hasKey q.1 = false :=
  C5_amended_refreshed_key_survives Nat Nat 2 ⟨2, [(1, 10), (2, 20)]⟩ (1, 10)
    [(2, 20)] [(3, 30)] rfl rfl rfl (by decide) rfl (by decide) (by decide)

/-! ### MultiLevelCache lemmas and claims -/

theorem strStartsWith_append_self (s t : String) :
    strStartsWith (s ++ t) s = true := by
  show s.data.isPrefixOf (s ++ t).data = true
  have h : (s ++ t).data = s.data ++ t.data := rfl
  rw [h, List.isPrefixOf_iff_prefix]
  exact List.prefix_append s.data t.data

theorem mapHas_append (l1 l2 : List (K × V)) (k : K) :
    mapHas (l1 ++ l2) k = (mapHas l1 k || mapHas l2 k) := by
  simp [mapHas, List.any_append]

theorem mapHas_mapDel_ne (l : List (K × V)) (k k' : K) (h : k ≠ k') :
    mapHas (mapDel l k') k = mapHas l k := by
  induction l with
  | nil => rfl
  | cons p rest ih =>
    by_cases hp : p.1 = k'
    · rw [show mapDel (p :: rest) k' = mapDel rest k' from by
        simp [mapDel, List.filter_cons, hp], ih, mapHas_cons]
      have : decide (p.1 = k) = false := by simp [hp]; exact fun he => h he.symm
      rw [this]
      simp
    · rw [show mapDel (p :: rest) k' = p :: mapDel rest k' from by
        simp [mapDel, List.filter_cons, hp], mapHas_cons, mapHas_cons, ih]

/-- Full description of the state after `MultiLevelCache.set`. -/
theorem MultiLevelCache.set_spec (V : Type) (now : Nat) (c : MultiLevelCache V)
    (key : String) (data : V) (ttl : Nat) (persistent l2Ok l3Ok : Bool) :
    MultiLevelCache.set now c key data ttl persistent l2Ok l3Ok =
      { c with
        l1Cache := c.l1Cache.set key data
        l2Cache :=
          match c.l2Cache with
          | some s2 =>
            if l2Ok then
              some (s2.setItem (c.l2Pre ++ key) (.entry ⟨data, now, ttl⟩))
            else some (cleanupStore now c.l2Pre s2)
          | none => none
        l3Cache :=
          if persistent then
            match c.l3Cache with
            | some s3 =>
              if l3Ok then
                some (s3.setItem (c.l3Pre ++ key) (.entry ⟨data, now, ttl⟩))
              else some (cleanupStore now c.l3Pre s3)
            | none => c.l3Cache
          else c.l3Cache } := by
  cases c with
  | mk l1 l2 l3 p2 p3 dttl =>
    cases l2 <;> cases l3 <;> cases persistent <;> cases l2Ok <;> cases l3Ok <;>
      simp [MultiLevelCache.set]

/-- C2: if a key is present in tier 1 — at any fill level, including a tier-1
LRU at capacity — `get` returns the tier-1 value without consulting any TTL
envelope, at every `now`, arbitrarily far past the original TTL, and `cleanup`
never touches tier 1; the entry leaves tier 1 only via capacity eviction,
delete, or clear — in particular a `set` of a different key issued below
tier-1 capacity keeps it resident. -/
theorem C2_tier1_hit_ignores_ttl (V : Type) (c : MultiLevelCache V)
    (key : String) (v : V) (now now2 now3 : Nat) (k2 : String) (v2 : V)
    (ttl : Nat) (persistent l2Ok l3Ok : Bool)
    (h : mapFind c.l1Cache.cache key = some v) :
    (MultiLevelCache.get now c key).1 = some v ∧
    (MultiLevelCache.cleanup now2 c).l1Cache = c.l1Cache ∧
    (k2 ≠ key → c.l1Cache.cache.length < c.l1Cache.capacity →
      mapHas (MultiLevelCache.set now3 c k2 v2 ttl persistent
        l2Ok l3Ok).l1Cache.cache key = true) := by
  have hhas : mapHas c.l1Cache.cache key = true := by
    rw [← mapFind_isSome_iff_mapHas, h]
    rfl
  refine ⟨?_, rfl, ?_⟩
  · unfold MultiLevelCache.get
    rw [show c.l1Cache.get key
        = (some v, ⟨c.l1Cache.capacity, mapDel c.l1Cache.cache key ++ [(key, v)]⟩)
      from by unfold LRUCache.get; rw [h]]
  · intro hk2 hroom
    rw [MultiLevelCache.set_spec]
    show mapHas (c.l1Cache.set k2 v2).cache key = true
    unfold LRUCache.set
    by_cases h2 : mapHas c.l1Cache.cache k2 = true
    · rw [if_pos h2]
      show mapHas (mapDel c.l1Cache.cache k2 ++ [(k2, v2)]) key = true
      rw [mapHas_append, mapHas_mapDel_ne _ _ _ (fun he => hk2 he.symm), hhas]
      simp
    · rw [if_neg h2, if_neg (by omega)]
      show mapHas (c.l1Cache.cache ++ [(k2, v2)]) key = true
      rw [mapHas_append, hhas]
      simp

/-- C2 witness: a concrete cache holding key "k" in tier 1 with an envelope
long expired (timestamp 1, ttl 1, queried at time 10^9). -/
theorem C2_witness :
    (MultiLevelCache.get 1000000000
      (⟨⟨100, [("k", 7)]⟩, some [("nyumba_l2_k", .entry ⟨7, 1, 1⟩)], some [],
        "nyumba_l2_", "nyumba_l3_", 300000⟩ : MultiLevelCache Nat) "k").1
      = some 7 ∧
    (MultiLevelCache.cleanup 1000000000
      (⟨⟨100, [("k", 7)]⟩, some [("nyumba_l2_k", .entry ⟨7, 1, 1⟩)], some [],
        "nyumba_l2_", "nyumba_l3_", 300000⟩ : MultiLevelCache Nat)).l1Cache
      = ⟨100, [("k", 7)]⟩ ∧
    (("j" : String) ≠ "k" →
      (⟨⟨100, [("k", 7)]⟩, some [("nyumba_l2_k", .entry ⟨7, 1, 1⟩)], some [],
        "nyumba_l2_", "nyumba_l3_",
        300000⟩ : MultiLevelCache Nat).l1Cache.cache.length
        < (⟨⟨100, [("k", 7)]⟩, some [("nyumba_l2_k", .entry ⟨7, 1, 1⟩)],
          some [], "nyumba_l2_", "nyumba_l3_",
          300000⟩ : MultiLevelCache Nat).l1Cache.capacity →
      mapHas (MultiLevelCache.set 1000000000
        (⟨⟨100, [("k", 7)]⟩, some [("nyumba_l2_k", .entry ⟨7, 1, 1⟩)], some [],
          "nyumba_l2_", "nyumba_l3_", 300000⟩ : MultiLevelCache Nat)
        "j" 9 50 false true true).l1Cache.cache "k" = true) :=
  C2_tier1_hit_ignores_ttl Nat
    ⟨⟨100, [("k", 7)]⟩, some [("nyumba_l2_k", .entry ⟨7, 1, 1⟩)], some [],
      "nyumba_l2_", "nyumba_l3_", 300000⟩
    "k" 7 1000000000 1000000000 1000000000 "j" 9 50 false true true
    (by decide)

/-- C6: `set` always writes the raw value to tier 1; with both stores present
it writes a fresh `{data, timestamp: now, ttl}` envelope to tier 2 when the
tier-2 write succeeds, and a storage failure there triggers a cleanup pass of
tier 2 instead of propagating; tier 3 is written (fresh envelope) only when
`persistent` is true, is completely unchanged when `persistent` is false, and a
tier-3 storage failure likewise triggers a tier-3 cleanup pass. `set` is a
total function of the state — it never throws to the caller. -/
theorem C6_set_frame (V : Type) (now : Nat) (c : MultiLevelCache V)
    (key : String) (data : V) (ttl : Nat) (persistent l2Ok l3Ok : Bool)
    (s2 s3 : Store V) (h2 : c.l2Cache = some s2) (h3 : c.l3Cache = some s3) :
    (MultiLevelCache.set now c key data ttl persistent l2Ok l3Ok).l1Cache
      = c.l1Cache.set key data ∧
    (l2Ok = true →
      (MultiLevelCache.set now c key data ttl persistent l2Ok l3Ok).l2Cache
        = some (s2.setItem (c.l2Pre ++ key) (.entry ⟨data, now, ttl⟩))) ∧
    (l2Ok = false →
      (MultiLevelCache.set now c key data ttl persistent l2Ok l3Ok).l2Cache
        = some (cleanupStore now c.l2Pre s2)) ∧
    (persistent = false →
      (MultiLevelCache.set now c key data ttl persistent l2Ok l3Ok).l3Cache
        = c.l3Cache) ∧
    (persistent = true → l3Ok = true →
      (MultiLevelCache.set now c key data ttl persistent l2Ok l3Ok).l3Cache
        = some (s3.setItem (c.l3Pre ++ key) (.entry ⟨data, now, ttl⟩))) ∧
    (persistent = true → l3Ok = false →
      (MultiLevelCache.set now c key data ttl persistent l2Ok l3Ok).l3Cache
        = some (cleanupStore now c.l3Pre s3)) := by
  rw [MultiLevelCache.set_spec, h2, h3]
  refine ⟨rfl, ?_, ?_, ?_, ?_, ?_⟩
  · intro hok
    simp [hok]
  · intro hok
    simp [hok]
  · intro hp
    simp [hp]
  · intro hp hok
    simp [hp, hok]
  · intro hp hok
    simp [hp, hok]

/-- C6 witness: concrete cache with both stores present, persistent false and
a failing tier-2 write (quota error), checking every conjunct. -/
theorem C6_witness :
    (MultiLevelCache.set 1000
      (⟨⟨100, []⟩, some [], some [], "nyumba_l2_", "nyumba_l3_", 300000⟩ :
        MultiLevelCache Nat) "k" 7 50 false false true).l1Cache
      = (⟨100, []⟩ : LRUCache String Nat).set "k" 7 ∧
    (false = true →
      (MultiLevelCache.set 1000
        (⟨⟨100, []⟩, some [], some [], "nyumba_l2_", "nyumba_l3_", 300000⟩ :
          MultiLevelCache Nat) "k" 7 50 false false true).l2Cache
        = some (Store.setItem [] ("nyumba_l2_" ++ "k") (.entry ⟨7, 1000, 50⟩))) ∧
    (false = false →
      (MultiLevelCache.set 1000
        (⟨⟨100, []⟩, some [], some [], "nyumba_l2_", "nyumba_l3_", 300000⟩ :
          MultiLevelCache Nat) "k" 7 50 false false true).l2Cache
        = some (cleanupStore 1000 "nyumba_l2_" [])) ∧
    (false = false →
      (MultiLevelCache.set 1000
        (⟨⟨100, []⟩, some [], some [], "nyumba_l2_", "nyumba_l3_", 300000⟩ :
          MultiLevelCache Nat) "k" 7 50 false false true).l3Cache
        = some []) ∧
    (false = true → true = true →
      (MultiLevelCache.set 1000
        (⟨⟨100, []⟩, some [], some [], "nyumba_l2_", "nyumba_l3_", 300000⟩ :
          MultiLevelCache Nat) "k" 7 50 false false true).l3Cache
        = some (Store.setItem [] ("nyumba_l3_" ++ "k") (.entry ⟨7, 1000, 50⟩))) ∧
    (false = true → true = false →
      (MultiLevelCache.set 1000
        (⟨⟨100, []⟩, some [], some [], "nyumba_l2_", "nyumba_l3_", 300000⟩ :
          MultiLevelCache Nat) "k" 7 50 false false true).l3Cache
        = some (cleanupStore 1000 "nyumba_l3_" [])) :=
  C6_set_frame Nat 1000
    ⟨⟨100, []⟩, some [], some [], "nyumba_l2_", "nyumba_l3_", 300000⟩
    "k" 7 50 false false true [] [] rfl rfl

/-- C10: when `get` misses tier 1 and tier 2 but finds a valid envelope in
tier 3, it returns the envelope's data, promotes the raw value into tier 1,
and writes the identical stored envelope — original timestamp and ttl, not
refreshed — into tier 2, leaving tier 3 unchanged; promotion therefore never
extends the entry's tier-2 expiry time. -/
theorem C10_promotion_preserves_envelope (V : Type) (now : Nat)
    (c : MultiLevelCache V) (key : String) (e : CacheEntry V) (s2 s3 : Store V)
    (h1 : mapFind c.l1Cache.cache key = none)
    (h2 : c.l2Cache = some s2)
    (h2m : s2.getItem (c.l2Pre ++ key) = none)
    (h3 : c.l3Cache = some s3)
    (h3f : s3.getItem (c.l3Pre ++ key) = some (.entry e))
    (hv : isValid now (.entry e) = true) :
    (MultiLevelCache.get now c key).1 = some e.data ∧
    (MultiLevelCache.get now c key).2.l1Cache = c.l1Cache.set key e.data ∧
    (MultiLevelCache.get now c key).2.l2Cache
      = some (s2.setItem (c.l2Pre ++ key) (.entry e)) ∧
    (MultiLevelCache.get now c key).2.l3Cache = c.l3Cache := by
  cases c with
  | mk l1 l2 l3 p2 p3 dttl =>
    cases h2
    cases h3
    have hmiss : l1.get key = (none, l1) := by
      unfold LRUCache.get
      rw [h1]
    simp only [MultiLevelCache.get, hmiss, MultiLevelCache.getL2, h2m,
      MultiLevelCache.getL3, h3f, hv, if_true]
    exact ⟨trivial, trivial, trivial, trivial⟩

/-- C10 witness: tier 3 holds a valid envelope (timestamp 1000, ttl 50) for
key "k"; at time 1020 the get promotes it, copying the identical envelope into
tier 2. -/
theorem C10_witness :
    (MultiLevelCache.get 1020
      (⟨⟨100, []⟩, some [], some [("nyumba_l3_k", .entry ⟨7, 1000, 50⟩)],
        "nyumba_l2_", "nyumba_l3_", 300000⟩ : MultiLevelCache Nat) "k").1
      = some 7 ∧
    (MultiLevelCache.get 1020
      (⟨⟨100, []⟩, some [], some [("nyumba_l3_k", .entry ⟨7, 1000, 50⟩)],
        "nyumba_l2_", "nyumba_l3_", 300000⟩ : MultiLevelCache Nat)
      "k").2.l1Cache = (⟨100, []⟩ : LRUCache String Nat).set "k" 7 ∧
    (MultiLevelCache.get 1020
      (⟨⟨100, []⟩, some [], some [("nyumba_l3_k", .entry ⟨7, 1000, 50⟩)],
        "nyumba_l2_", "nyumba_l3_", 300000⟩ : MultiLevelCache Nat)
      "k").2.l2Cache
      = some (Store.setItem [] ("nyumba_l2_" ++ "k") (.entry ⟨7, 1000, 50⟩)) ∧
    (MultiLevelCache.get 1020
      (⟨⟨100, []⟩, some [], some [("nyumba_l3_k", .entry ⟨7, 1000, 50⟩)],
        "nyumba_l2_", "nyumba_l3_", 300000⟩ : MultiLevelCache Nat)
      "k").2.l3Cache = some [("nyumba_l3_k", .entry ⟨7, 1000, 50⟩)] :=
  C10_promotion_preserves_envelope Nat 1020
    ⟨⟨100, []⟩, some [], some [("nyumba_l3_k", .entry ⟨7, 1000, 50⟩)],
      "nyumba_l2_", "nyumba_l3_", 300000⟩
    "k" ⟨7, 1000, 50⟩ [] [("nyumba_l3_k", .entry ⟨7, 1000, 50⟩)]
    rfl rfl rfl rfl (by decide) (by decide)

/-- C1 counterexample: concrete run refuting the "get(k) returns not-found"
conjunct. set("k", 7, ttl = 50) at t = 1000 on a fresh cache, cleanup at
t = 1060 (60ms later): get("k") at t = 1060 still returns 7, served from the
raw tier-1 copy that cleanup never touches, not not-found. -/
theorem C1_counterexample :
    (MultiLevelCache.get 1060
      (MultiLevelCache.cleanup 1060
        (MultiLevelCache.set 1000
          (MultiLevelCache.init Nat 100 "nyumba_l2_" "nyumba_l3_" 300000)
          "k" 7 50 false true true)) "k").1 ≠ none := by decide

/-- C1 (amended): after set(k, v, ttl = 50ms) at any time t on a fresh cache
(either value of `persistent`), an immediate get(k) returns v; once 60ms have
elapsed and cleanup() has been called, tiers 2 and 3 no longer contain the key
(both stores are empty again) — but get(k) still returns v, served from the
raw tier-1 copy, which carries no TTL envelope; get(k) would return not-found
only once the key has also left tier 1 (capacity eviction, delete, or clear). -/
theorem C1_amended_cleanup_purges_tiers_2_3_but_tier1_serves (V : Type)
    (t : Nat) (key : String) (v : V) (p : Bool) :
    (MultiLevelCache.get t
      (MultiLevelCache.set t
        (MultiLevelCache.init V 100 "nyumba_l2_" "nyumba_l3_" 300000)
        key v 50 p true true) key).1 = some v ∧
    (MultiLevelCache.cleanup (t + 60)
      (MultiLevelCache.set t
        (MultiLevelCache.init V 100 "nyumba_l2_" "nyumba_l3_" 300000)
        key v 50 p true true)).l2Cache = some ([] : Store V) ∧
    (MultiLevelCache.cleanup (t + 60)
      (MultiLevelCache.set t
        (MultiLevelCache.init V 100 "nyumba_l2_" "nyumba_l3_" 300000)
        key v 50 p true true)).l3Cache = some ([] : Store V) ∧
    (MultiLevelCache.get (t + 60)
      (MultiLevelCache.cleanup (t + 60)
        (MultiLevelCache.set t
          (MultiLevelCache.init V 100 "nyumba_l2_" "nyumba_l3_" 300000)
          key v 50 p true true)) key).1 = some v := by
  have hval : isValid (t + 60) (.entry ⟨v, t, 50⟩ : StoredVal V) = false := by
    unfold isValid
    have h60 : t + 60 - t = 60 := by omega
    simp [h60]
  have hget1 : ∀ (tm : Nat) (o2 o3 : Option (Store V)),
      (MultiLevelCache.get tm
        (⟨⟨100, [(key, v)]⟩, o2, o3, "nyumba_l2_", "nyumba_l3_",
          300000⟩ : MultiLevelCache V) key).1 = some v := by
    intro tm o2 o3
    have hfind : mapFind [(key, v)] key = some v := by
      rw [mapFind_cons, if_pos rfl]
    simp only [MultiLevelCache.get, LRUCache.get, hfind]
  cases p with
  | false =>
    have hset : MultiLevelCache.set t
        (MultiLevelCache.init V 100 "nyumba_l2_" "nyumba_l3_" 300000)
        key v 50 false true true
        = ⟨⟨100, [(key, v)]⟩,
            some [("nyumba_l2_" ++ key, .entry ⟨v, t, 50⟩)], some [],
            "nyumba_l2_", "nyumba_l3_", 300000⟩ := by
      rw [MultiLevelCache.set_spec]
      simp [MultiLevelCache.init, LRUCache.empty, LRUCache.set, mapHas,
        Store.setItem]
    have hcl : MultiLevelCache.cleanup (t + 60)
        (⟨⟨100, [(key, v)]⟩,
          some [("nyumba_l2_" ++ key, .entry ⟨v, t, 50⟩)], some [],
          "nyumba_l2_", "nyumba_l3_", 300000⟩ : MultiLevelCache V)
        = ⟨⟨100, [(key, v)]⟩, some [], some [],
            "nyumba_l2_", "nyumba_l3_", 300000⟩ := by
      unfold MultiLevelCache.cleanup
      simp [cleanupStore, strStartsWith_append_self, hval]
    rw [hset, hcl]
    exact ⟨hget1 t _ _, rfl, rfl, hget1 (t + 60) _ _⟩
  | true =>
    have hset : MultiLevelCache.set t
        (MultiLevelCache.init V 100 "nyumba_l2_" "nyumba_l3_" 300000)
        key v 50 true true true
        = ⟨⟨100, [(key, v)]⟩,
            some [("nyumba_l2_" ++ key, .entry ⟨v, t, 50⟩)],
            some [("nyumba_l3_" ++ key, .entry ⟨v, t, 50⟩)],
            "nyumba_l2_", "nyumba_l3_", 300000⟩ := by
      rw [MultiLevelCache.set_spec]
      simp [MultiLevelCache.init, LRUCache.empty, LRUCache.set, mapHas,
        Store.setItem]
    have hcl : MultiLevelCache.cleanup (t + 60)
        (⟨⟨100, [(key, v)]⟩,
          some [("nyumba_l2_" ++ key, .entry ⟨v, t, 50⟩)],
          some [("nyumba_l3_" ++ key, .entry ⟨v, t, 50⟩)],
          "nyumba_l2_", "nyumba_l3_", 300000⟩ : MultiLevelCache V)
        = ⟨⟨100, [(key, v)]⟩, some [], some [],
            "nyumba_l2_", "nyumba_l3_", 300000⟩ := by
      unfold MultiLevelCache.cleanup
      simp [cleanupStore, strStartsWith_append_self, hval]
    rw [hset, hcl]
    exact ⟨hget1 t _ _, rfl, rfl, hget1 (t + 60) _ _⟩

/-- C1 amended witness at t = 1000, key "k", value 7, persistent = false. -/
theorem C1_amended_witness :
    (MultiLevelCache.get 1000
      (MultiLevelCache.set 1000
        (MultiLevelCache.init Nat 100 "nyumba_l2_" "nyumba_l3_" 300000)
        "k" 7 50 false true true) "k").1 = some 7 ∧
    (MultiLevelCache.cleanup 1060
      (MultiLevelCache.set 1000
        (MultiLevelCache.init Nat 100 "nyumba_l2_" "nyumba_l3_" 300000)
        "k" 7 50 false true true)).l2Cache = some ([] : Store Nat) ∧
    (MultiLevelCache.cleanup 1060
      (MultiLevelCache.set 1000
        (MultiLevelCache.init Nat 100 "nyumba_l2_" "nyumba_l3_" 300000)
        "k" 7 50 false true true)).l3Cache = some ([] : Store Nat) ∧
    (MultiLevelCache.get 1060
      (MultiLevelCache.cleanup 1060
        (MultiLevelCache.set 1000
          (MultiLevelCache.init Nat 100 "nyumba_l2_" "nyumba_l3_" 300000)
          "k" 7 50 false true true)) "k").1 = some 7 :=
  C1_amended_cleanup_purges_tiers_2_3_but_tier1_serves Nat 1000 "k" 7 false

/-! ### BloomFilter lemmas and claim C3 -/

theorem getD_set_true (l : List Bool) (m j : Nat)
    (h : l.getD j false = true) : (l.set m true).getD j false = true := by
  rw [List.getD_eq_getElem?_getD] at h ⊢
  rw [List.getElem?_set]
  by_cases he : m = j
  · subst he
    by_cases hm : m < l.length
    · simp [hm]
    · rw [if_pos rfl, if_neg hm]
      rw [getElem?_neg l m hm] at h
      simp at h
  · rw [if_neg he]
    exact h

theorem foldl_set_true_length (is : List Nat) (f : Nat → Nat) (arr : List Bool) :
    (is.foldl (fun a i => a.set (f i) true) arr).length = arr.length := by
  induction is generalizing arr with
  | nil => rfl
  | cons i rest ih => rw [List.foldl_cons, ih, List.length_set]

theorem foldl_set_true_mono (is : List Nat) (f : Nat → Nat) (arr : List Bool)
    (j : Nat) (h : arr.getD j false = true) :
    (is.foldl (fun a i => a.set (f i) true) arr).getD j false = true := by
  induction is generalizing arr with
  | nil => exact h
  | cons i rest ih => exact ih _ (getD_set_true _ _ _ h)

theorem foldl_set_true_sets (is : List Nat) (f : Nat → Nat) (arr : List Bool)
    (i : Nat) (hmem : i ∈ is) (hlt : f i < arr.length) :
    (is.foldl (fun a i => a.set (f i) true) arr).getD (f i) false = true := by
  induction is generalizing arr with
  | nil => cases hmem
  | cons i0 rest ih =>
    rw [List.foldl_cons]
    rcases List.mem_cons.mp hmem with he | hm
    · subst he
      apply foldl_set_true_mono
      rw [List.getD_eq_getElem?_getD, List.getElem?_set, if_pos rfl, if_pos hlt]
      rfl
    · exact ih _ hm (by rw [List.length_set]; exact hlt)

theorem BloomFilter.size_add (b : BloomFilter) (x : String) :
    (b.add x).size = b.size := rfl

theorem BloomFilter.hashFunctions_add (b : BloomFilter) (x : String) :
    (b.add x).hashFunctions = b.hashFunctions := rfl

theorem BloomFilter.length_add (b : BloomFilter) (x : String) :
    (b.add x).bitArray.length = b.bitArray.length :=
  foldl_set_true_length _ _ _

theorem BloomFilter.size_addAll (xs : List String) (b : BloomFilter) :
    (b.addAll xs).size = b.size ∧
    (b.addAll xs).hashFunctions = b.hashFunctions ∧
    (b.addAll xs).bitArray.length = b.bitArray.length := by
  induction xs generalizing b with
  | nil => exact ⟨rfl, rfl, rfl⟩
  | cons x rest ih =>
    have hstep := BloomFilter.length_add b x
    have h2 := ih (b.add x)
    refine ⟨h2.1, h2.2.1, ?_⟩
    show ((b.add x).addAll rest).bitArray.length = b.bitArray.length
    rw [h2.2.2, hstep]

theorem BloomFilter.addAll_mono (xs : List String) (b : BloomFilter) (j : Nat)
    (h : b.bitArray.getD j false = true) :
    (b.addAll xs).bitArray.getD j false = true := by
  induction xs generalizing b with
  | nil => exact h
  | cons x rest ih =>
    exact ih (b.add x) (foldl_set_true_mono _ _ _ _ h)

/-- C3: for every BloomFilter state whose bit array has its constructed length
`size` with `size ≥ 1` (every construction from `expectedElements ≥ 1` and
`falsePositiveRate ∈ (0, 1)` yields such a state, since then
`ceil(−n·ln p / (ln 2)²) ≥ 1`): once `add(x)` has been called, every
subsequent `mightContain(x)` returns true, regardless of how many further
items are added afterwards — no false negatives, forever. -/
theorem C3_bloom_no_false_negatives (b : BloomFilter) (x : String)
    (xs : List String)
    (hsz : 1 ≤ b.size) (hlen : b.bitArray.length = b.size) :
    ((b.add x).addAll xs).mightContain x = true := by
  have hpres := BloomFilter.size_addAll xs (b.add x)
  unfold BloomFilter.mightContain
  rw [List.all_eq_true]
  intro i hi
  rw [hpres.2.1, BloomFilter.hashFunctions_add] at hi
  rw [hpres.1, BloomFilter.size_add]
  apply BloomFilter.addAll_mono
  apply foldl_set_true_sets _ _ _ _ hi
  rw [hlen]
  exact Nat.mod_lt _ (by omega)

/-- C3 witness: a filter with 10 bits and 3 hash rounds; after adding "a" and
then "b" and "c", mightContain "a" is still true. -/
theorem C3_witness :
    1 ≤ (BloomFilter.init 10 3).size ∧
    (BloomFilter.init 10 3).bitArray.length = (BloomFilter.init 10 3).size ∧
    (((BloomFilter.init 10 3).add "a").addAll ["b", "c"]).mightContain "a"
      = true :=
  ⟨by decide, by decide,
    C3_bloom_no_false_negatives (BloomFilter.init 10 3) "a" ["b", "c"]
      (by decide) (by decide)⟩

/-! ### SpatialIndex lemmas and claim C7 -/

theorem mem_foldl_union {A : Type} (L : List A) (f : A → Finset String)
    (acc : Finset String) (x : String) :
    x ∈ L.foldl (fun a e => a ∪ f e) acc ↔ x ∈ acc ∨ ∃ e ∈ L, x ∈ f e := by
  induction L generalizing acc with
  | nil => simp
  | cons e rest ih =>
    rw [List.foldl_cons, ih]
    simp only [Finset.mem_union, List.mem_cons]
    constructor
    · rintro ((h | h) | ⟨e2, he2, hx⟩)
      · exact Or.inl h
      · exact Or.inr ⟨e, Or.inl rfl, h⟩
      · exact Or.inr ⟨e2, Or.inr he2, hx⟩
    · rintro (h | ⟨e2, (rfl | he2), hx⟩)
      · exact Or.inl (Or.inl h)
      · exact Or.inl (Or.inr hx)
      · exact Or.inr ⟨e2, he2, hx⟩

theorem mem_foldl_union2 (L J : List Int) (f : Int → Int → Finset String)
    (acc : Finset String) (x : String) :
    x ∈ L.foldl (fun a i => J.foldl (fun b j => b ∪ f i j) a) acc ↔
      x ∈ acc ∨ ∃ i ∈ L, ∃ j ∈ J, x ∈ f i j := by
  induction L generalizing acc with
  | nil => simp
  | cons i rest ih =>
    rw [List.foldl_cons, ih, mem_foldl_union]
    constructor
    · rintro ((h | ⟨j, hj, hx⟩) | ⟨i2, hi2, j, hj, hx⟩)
      · exact Or.inl h
      · exact Or.inr ⟨i, List.mem_cons_self i rest, j, hj, hx⟩
      · exact Or.inr ⟨i2, List.mem_cons_of_mem i hi2, j, hj, hx⟩
    · rintro (h | ⟨i2, hi2, j, hj, hx⟩)
      · exact Or.inl (Or.inl h)
      · rcases List.mem_cons.mp hi2 with rfl | hi3
        · exact Or.inl (Or.inr ⟨j, hj, hx⟩)
        · exact Or.inr ⟨i2, hi3, j, hj, hx⟩

theorem mem_gridOffsets (r i : Int) : i ∈ gridOffsets r ↔ -r ≤ i ∧ i ≤ r := by
  unfold gridOffsets
  simp only [List.mem_map, List.mem_range]
  constructor
  · rintro ⟨n, hn, rfl⟩
    omega
  · rintro ⟨h1, h2⟩
    exact ⟨(i + r).toNat, by omega, by omega⟩

theorem div_shift (g : ℚ) (hg : g ≠ 0) (x : ℚ) (i : ℤ) :
    (x + i * g) / g = x / g + i := by
  rw [add_div, mul_div_assoc, div_self hg, mul_one]

theorem getGridKey_shift (g : SpatialIndex) (hg : 0 < g.gridSize)
    (lat lng : ℚ) (i j : ℤ) :
    g.getGridKey (lat + i * g.gridSize) (lng + j * g.gridSize)
      = ((g.getGridKey lat lng).1 + i, (g.getGridKey lat lng).2 + j) := by
  unfold SpatialIndex.getGridKey
  rw [div_shift _ (ne_of_gt hg), div_shift _ (ne_of_gt hg),
    Int.floor_add_int, Int.floor_add_int]

/-- Membership in `findNearby`: exactly the union of the buckets of the
inclusive (2r+1)² square of cells around the query cell. -/
theorem mem_findNearby_iff (idx : SpatialIndex) (hg : 0 < idx.gridSize)
    (lat lng radiusKm : ℚ) (x : String) :
    x ∈ idx.findNearby lat lng radiusKm ↔
      ∃ i j : ℤ,
        -⌈radiusKm / (idx.gridSize * 111)⌉ ≤ i ∧
        i ≤ ⌈radiusKm / (idx.gridSize * 111)⌉ ∧
        -⌈radiusKm / (idx.gridSize * 111)⌉ ≤ j ∧
        j ≤ ⌈radiusKm / (idx.gridSize * 111)⌉ ∧
        x ∈ idx.cellIds ((idx.getGridKey lat lng).1 + i,
          (idx.getGridKey lat lng).2 + j) := by
  simp only [SpatialIndex.findNearby]
  rw [mem_foldl_union2]
  simp only [Finset.not_mem_empty, false_or]
  constructor
  · rintro ⟨i, hi, j, hj, hx⟩
    rw [mem_gridOffsets] at hi hj
    rw [getGridKey_shift idx hg] at hx
    exact ⟨i, j, hi.1, hi.2, hj.1, hj.2, hx⟩
  · rintro ⟨i, j, hi1, hi2, hj1, hj2, hx⟩
    refine ⟨i, (mem_gridOffsets _ _).mpr ⟨hi1, hi2⟩, j,
      (mem_gridOffsets _ _).mpr ⟨hj1, hj2⟩, ?_⟩
    rw [getGridKey_shift idx hg]
    exact hx

theorem floor_bound_of_abs_le (g : ℚ) (hg : 0 < g) (x y : ℚ) (r : ℤ)
    (h : |y - x| ≤ (r : ℚ) * g) :
    ⌊x / g⌋ - r ≤ ⌊y / g⌋ ∧ ⌊y / g⌋ ≤ ⌊x / g⌋ + r := by
  rw [abs_le] at h
  constructor
  · have hle : x - (r : ℚ) * g ≤ y := by linarith [h.1]
    have hmono := Int.floor_le_floor ((div_le_div_iff_of_pos_right hg).mpr hle)
    rw [show (x - (r : ℚ) * g) / g = x / g - r from by
      rw [sub_div, mul_div_assoc, div_self (ne_of_gt hg), mul_one],
      Int.floor_sub_int] at hmono
    exact hmono
  · have hle : y ≤ x + (r : ℚ) * g := by linarith [h.2]
    have hmono := Int.floor_le_floor ((div_le_div_iff_of_pos_right hg).mpr hle)
    rw [div_shift _ (ne_of_gt hg), Int.floor_add_int] at hmono
    exact hmono

theorem getGridKey_fixed (l : List ((Int × Int) × Finset String)) :
    (⟨1/100, l⟩ : SpatialIndex).getGridKey 0 0 = (0, 0) := by
  unfold SpatialIndex.getGridKey
  norm_num

/-- C7: for every state of the SpatialIndex with positive grid size,
`findNearby(lat, lng, radiusKm)` returns exactly the deduplicated union of the
id-buckets of all grid cells within `gridRadius = ceil(radiusKm /
(gridSize·111))` cells of the query cell in each axis (the inclusive (2r+1)²
square); this is a superset of the true circle (planar 111 km-per-degree
metric, stated with squared distances to stay in ℚ); and concretely, with the
default gridSize 0.01, after addProperty("a", 0, 0) the query
findNearby(0, 0, 0.5) contains "a", while after removeProperty("a", 0, 0) the
same query no longer does. -/
theorem C7_spatial_findNearby (idx : SpatialIndex) (hg : 0 < idx.gridSize)
    (lat lng radiusKm : ℚ) (id : String) (plat plng : ℚ) :
    (id ∈ idx.findNearby lat lng radiusKm ↔
      ∃ i j : ℤ,
        -⌈radiusKm / (idx.gridSize * 111)⌉ ≤ i ∧
        i ≤ ⌈radiusKm / (idx.gridSize * 111)⌉ ∧
        -⌈radiusKm / (idx.gridSize * 111)⌉ ≤ j ∧
        j ≤ ⌈radiusKm / (idx.gridSize * 111)⌉ ∧
        id ∈ idx.cellIds ((idx.getGridKey lat lng).1 + i,
          (idx.getGridKey lat lng).2 + j)) ∧
    (0 ≤ radiusKm →
      111 ^ 2 * ((plat - lat) ^ 2 + (plng - lng) ^ 2) ≤ radiusKm ^ 2 →
      id ∈ idx.cellIds (idx.getGridKey plat plng) →
      id ∈ idx.findNearby lat lng radiusKm) ∧
    "a" ∈ (SpatialIndex.addProperty ⟨1/100, []⟩ "a" 0 0).findNearby 0 0 (1/2) ∧
    "a" ∉ ((SpatialIndex.addProperty ⟨1/100, []⟩ "a" 0 0).removeProperty
      "a" 0 0).findNearby 0 0 (1/2) := by
  have hG : SpatialIndex.addProperty ⟨1/100, []⟩ "a" 0 0
      = ⟨1/100, [((0, 0), {"a"})]⟩ := by
    simp only [SpatialIndex.addProperty, mapFind, getGridKey_fixed]
    rfl
  refine ⟨mem_findNearby_iff idx hg lat lng radiusKm id, ?_, ?_, ?_⟩
  · intro hrad hdist hmem
    have h111 : (0 : ℚ) < 111 := by norm_num
    have hsq1 : (111 * (plat - lat)) ^ 2 ≤ radiusKm ^ 2 := by
      nlinarith [sq_nonneg (plng - lng)]
    have hsq2 : (111 * (plng - lng)) ^ 2 ≤ radiusKm ^ 2 := by
      nlinarith [sq_nonneg (plat - lat)]
    have habs1 : 111 * |plat - lat| ≤ radiusKm := by
      have := abs_le_of_sq_le_sq hsq1 hrad
      rwa [abs_mul, show |(111 : ℚ)| = 111 from by norm_num] at this
    have habs2 : 111 * |plng - lng| ≤ radiusKm := by
      have := abs_le_of_sq_le_sq hsq2 hrad
      rwa [abs_mul, show |(111 : ℚ)| = 111 from by norm_num] at this
    have hrg : radiusKm / 111 ≤ (⌈radiusKm / (idx.gridSize * 111)⌉ : ℚ)
        * idx.gridSize := by
      have hceil : radiusKm / (idx.gridSize * 111)
          ≤ (⌈radiusKm / (idx.gridSize * 111)⌉ : ℚ) := Int.le_ceil _
      calc radiusKm / 111
          = (radiusKm / (idx.gridSize * 111)) * idx.gridSize := by
            field_simp
            ring
        _ ≤ (⌈radiusKm / (idx.gridSize * 111)⌉ : ℚ) * idx.gridSize :=
            mul_le_mul_of_nonneg_right hceil (le_of_lt hg)
    have hb1 : |plat - lat| ≤ (⌈radiusKm / (idx.gridSize * 111)⌉ : ℚ)
        * idx.gridSize := by
      have h1 : |plat - lat| ≤ radiusKm / 111 := by
        rw [le_div_iff₀ h111]
        linarith [habs1]
      exact le_trans h1 hrg
    have hb2 : |plng - lng| ≤ (⌈radiusKm / (idx.gridSize * 111)⌉ : ℚ)
        * idx.gridSize := by
      have h1 : |plng - lng| ≤ radiusKm / 111 := by
        rw [le_div_iff₀ h111]
        linarith [habs2]
      exact le_trans h1 hrg
    have hlatb := floor_bound_of_abs_le idx.gridSize hg lat plat
      ⌈radiusKm / (idx.gridSize * 111)⌉ hb1
    have hlngb := floor_bound_of_abs_le idx.gridSize hg lng plng
      ⌈radiusKm / (idx.gridSize * 111)⌉ hb2
    apply (mem_findNearby_iff idx hg lat lng radiusKm id).mpr
    refine ⟨⌊plat / idx.gridSize⌋ - (idx.getGridKey lat lng).1,
      ⌊plng / idx.gridSize⌋ - (idx.getGridKey lat lng).2,
      ?_, ?_, ?_, ?_, ?_⟩
    · show -⌈radiusKm / (idx.gridSize * 111)⌉
        ≤ ⌊plat / idx.gridSize⌋ - ⌊lat / idx.gridSize⌋
      omega
    · show ⌊plat / idx.gridSize⌋ - ⌊lat / idx.gridSize⌋
        ≤ ⌈radiusKm / (idx.gridSize * 111)⌉
      omega
    · show -⌈radiusKm / (idx.gridSize * 111)⌉
        ≤ ⌊plng / idx.gridSize⌋ - ⌊lng / idx.gridSize⌋
      omega
    · show ⌊plng / idx.gridSize⌋ - ⌊lng / idx.gridSize⌋
        ≤ ⌈radiusKm / (idx.gridSize * 111)⌉
      omega
    · have he1 : (idx.getGridKey lat lng).1
          + (⌊plat / idx.gridSize⌋ - (idx.getGridKey lat lng).1)
          = ⌊plat / idx.gridSize⌋ := by omega
      have he2 : (idx.getGridKey lat lng).2
          + (⌊plng / idx.gridSize⌋ - (idx.getGridKey lat lng).2)
          = ⌊plng / idx.gridSize⌋ := by omega
      rw [he1, he2]
      exact hmem
  · rw [hG]
    have hr : (⌈(1/2 : ℚ) / ((1/100) * 111)⌉ : ℤ) = 1 := by
      rw [Int.ceil_eq_iff]
      constructor <;> norm_num
    apply (mem_findNearby_iff _ (by norm_num) _ _ _ _).mpr
    refine ⟨0, 0, ?_, ?_, ?_, ?_, ?_⟩
    · show -⌈(1/2 : ℚ) / ((1/100) * 111)⌉ ≤ 0
      rw [hr]
      decide
    · show (0 : ℤ) ≤ ⌈(1/2 : ℚ) / ((1/100) * 111)⌉
      rw [hr]
      decide
    · show -⌈(1/2 : ℚ) / ((1/100) * 111)⌉ ≤ 0
      rw [hr]
      decide
    · show (0 : ℤ) ≤ ⌈(1/2 : ℚ) / ((1/100) * 111)⌉
      rw [hr]
      decide
    · rw [getGridKey_fixed]
      show "a" ∈ SpatialIndex.cellIds ⟨1/100, [((0, 0), {"a"})]⟩ (0 + 0, 0 + 0)
      simp [SpatialIndex.cellIds, mapFind]
  · rw [hG]
    have hR : (⟨1/100, [((0, 0), {"a"})]⟩ : SpatialIndex).removeProperty
        "a" 0 0 = ⟨1/100, []⟩ := by
      simp only [SpatialIndex.removeProperty, getGridKey_fixed, mapFind]
      simp [mapDel]
    rw [hR]
    intro hmem
    rw [mem_findNearby_iff _ (by norm_num)] at hmem
    rcases hmem with ⟨i, j, _, _, _, _, hx⟩
    simp [SpatialIndex.cellIds, mapFind] at hx

/-- C7 witness: the empty index with the default grid size 1/100, queried at
the origin with radius 1/2, and the concrete add/remove runs. -/
theorem C7_witness :
    (("a" : String) ∈ (⟨1/100, []⟩ : SpatialIndex).findNearby 0 0 (1/2) ↔
      ∃ i j : ℤ,
        -⌈(1/2 : ℚ) / ((⟨1/100, []⟩ : SpatialIndex).gridSize * 111)⌉ ≤ i ∧
        i ≤ ⌈(1/2 : ℚ) / ((⟨1/100, []⟩ : SpatialIndex).gridSize * 111)⌉ ∧
        -⌈(1/2 : ℚ) / ((⟨1/100, []⟩ : SpatialIndex).gridSize * 111)⌉ ≤ j ∧
        j ≤ ⌈(1/2 : ℚ) / ((⟨1/100, []⟩ : SpatialIndex).gridSize * 111)⌉ ∧
        ("a" : String) ∈ (⟨1/100, []⟩ : SpatialIndex).cellIds
          (((⟨1/100, []⟩ : SpatialIndex).getGridKey 0 0).1 + i,
            ((⟨1/100, []⟩ : SpatialIndex).getGridKey 0 0).2 + j)) ∧
    ((0 : ℚ) ≤ 1/2 →
      111 ^ 2 * (((0 : ℚ) - 0) ^ 2 + ((0 : ℚ) - 0) ^ 2) ≤ (1/2 : ℚ) ^ 2 →
      ("a" : String) ∈ (⟨1/100, []⟩ : SpatialIndex).cellIds
        ((⟨1/100, []⟩ : SpatialIndex).getGridKey 0 0) →
      ("a" : String) ∈ (⟨1/100, []⟩ : SpatialIndex).findNearby 0 0 (1/2)) ∧
    "a" ∈ (SpatialIndex.addProperty ⟨1/100, []⟩ "a" 0 0).findNearby 0 0 (1/2) ∧
    "a" ∉ ((SpatialIndex.addProperty ⟨1/100, []⟩ "a" 0 0).removeProperty
      "a" 0 0).findNearby 0 0 (1/2) :=
  C7_spatial_findNearby ⟨1/100, []⟩ (by norm_num) 0 0 (1/2) "a" 0 0

/-! ### SearchTrie lemmas and claim C8 -/

theorem mapFind_mapUpdate_self (l : List (K × V)) (k : K) (f : V → V) (v : V)
    (h : mapFind l k = some v) :
    mapFind (mapUpdate l k f) k = some (f v) := by
  induction l with
  | nil => simp [mapFind] at h
  | cons p rest ih =>
    rw [mapFind_cons] at h
    by_cases hp : p.1 = k
    · rw [if_pos hp] at h
      injection h with hv
      subst hv
      unfold mapUpdate
      rw [if_pos hp, mapFind_cons, if_pos rfl]
    · rw [if_neg hp] at h
      unfold mapUpdate
      rw [if_neg hp, mapFind_cons, if_neg hp]
      exact ih h

theorem mapFind_mapUpdate_ne (l : List (K × V)) (k c : K) (f : V → V)
    (h : c ≠ k) : mapFind (mapUpdate l k f) c = mapFind l c := by
  induction l with
  | nil => rfl
  | cons p rest ih =>
    unfold mapUpdate
    by_cases hp : p.1 = k
    · rw [if_pos hp, mapFind_cons, mapFind_cons]
      have h1 : ¬ (k = c) := fun he => h he.symm
      rw [if_neg h1, if_neg (by rw [hp]; exact h1)]
    · rw [if_neg hp, mapFind_cons, mapFind_cons, ih]

theorem mapFind_append_self (l : List (K × V)) (k : K) (v : V)
    (h : mapFind l k = none) : mapFind (l ++ [(k, v)]) k = some v := by
  induction l with
  | nil =>
    show mapFind [(k, v)] k = some v
    rw [mapFind_cons, if_pos rfl]
  | cons p rest ih =>
    rw [mapFind_cons] at h
    by_cases hp : p.1 = k
    · rw [if_pos hp] at h
      cases h
    · rw [if_neg hp] at h
      rw [List.cons_append, mapFind_cons, if_neg hp]
      exact ih h

theorem mapFind_append_ne (l : List (K × V)) (k c : K) (v : V)
    (h : c ≠ k) : mapFind (l ++ [(k, v)]) c = mapFind l c := by
  induction l with
  | nil =>
    show mapFind [(k, v)] c = none
    rw [mapFind_cons, if_neg (fun he => h he.symm)]
    rfl
  | cons p rest ih =>
    rw [List.cons_append, mapFind_cons, mapFind_cons]
    by_cases hp : p.1 = c
    · rw [if_pos hp, if_pos hp]
    · rw [if_neg hp, if_neg hp, ih]

theorem found_nil (t : TrieNode) : t.found [] = t.propertyIds := rfl

theorem found_cons_of_find_some (t : TrieNode) (c : Char) (ps : List Char)
    (child : TrieNode) (h : mapFind t.children c = some child) :
    t.found (c :: ps) = child.found ps := by
  simp only [TrieNode.found, TrieNode.descend, h]

theorem found_cons_of_find_none (t : TrieNode) (c : Char) (ps : List Char)
    (h : mapFind t.children c = none) :
    t.found (c :: ps) = [] := by
  simp only [TrieNode.found, TrieNode.descend, h]

theorem mem_found_insertFrom (w : List Char) (t : TrieNode) (p : List Char)
    (pid x : String) :
    x ∈ (t.insertFrom w pid).found p ↔
      (x = pid ∧ p ≠ [] ∧ p <+: w) ∨ x ∈ t.found p := by
  induction w generalizing t p with
  | nil =>
    show x ∈ t.found p ↔ _
    constructor
    · exact Or.inr
    · rintro (⟨_, hne, hp⟩ | h)
      · exact absurd (List.prefix_nil.mp hp) hne
      · exact h
  | cons ch rest ih =>
    rcases hb : mapFind t.children ch with _ | child
    · -- no existing child at ch
      have hins : t.insertFrom (ch :: rest) pid
          = .mk (t.children ++
              [(ch, TrieNode.insertFrom (.mk [] (List.insert pid [])) rest pid)])
            t.propertyIds := by
        simp only [TrieNode.insertFrom, hb]
      cases p with
      | nil =>
        rw [hins, found_nil, found_nil]
        show x ∈ t.propertyIds ↔ _
        constructor
        · exact Or.inr
        · rintro (⟨_, hne, _⟩ | h)
          · exact absurd rfl hne
          · exact h
      | cons c ps =>
        by_cases hc : c = ch
        · subst hc
          have hfind : mapFind ((t.insertFrom (c :: rest) pid).children) c
              = some (TrieNode.insertFrom (.mk [] (List.insert pid [])) rest pid) := by
            rw [hins]
            exact mapFind_append_self _ _ _ hb
          rw [found_cons_of_find_some _ _ _ _ hfind, ih,
            found_cons_of_find_none t c ps hb]
          cases ps with
          | nil =>
            rw [found_nil]
            show _ ↔ (x = pid ∧ _ ∧ _) ∨ x ∈ ([] : List String)
            simp [List.cons_prefix_cons, List.nil_prefix, TrieNode.propertyIds]
          | cons q qs =>
            rw [found_cons_of_find_none _ q qs (by rfl)]
            simp [List.cons_prefix_cons]
        · -- different first character: nothing changes on this path
          have hfind : mapFind ((t.insertFrom (ch :: rest) pid).children) c
              = mapFind t.children c := by
            rw [hins]
            exact mapFind_append_ne _ _ _ _ hc
          have heq : (t.insertFrom (ch :: rest) pid).found (c :: ps)
              = t.found (c :: ps) := by
            rcases hb2 : mapFind t.children c with _ | child3
            · rw [found_cons_of_find_none _ _ _ (by rw [hfind]; exact hb2),
                found_cons_of_find_none _ _ _ hb2]
            · rw [found_cons_of_find_some _ _ _ _ (by rw [hfind]; exact hb2),
                found_cons_of_find_some _ _ _ _ hb2]
          rw [heq]
          simp [List.cons_prefix_cons, hc]
    · -- existing child at ch
      have hins : t.insertFrom (ch :: rest) pid
          = .mk (mapUpdate t.children ch
              (fun _ => TrieNode.insertFrom
                (.mk child.children (List.insert pid child.propertyIds)) rest pid))
            t.propertyIds := by
        simp only [TrieNode.insertFrom, hb]
      cases p with
      | nil =>
        rw [hins, found_nil, found_nil]
        show x ∈ t.propertyIds ↔ _
        constructor
        · exact Or.inr
        · rintro (⟨_, hne, _⟩ | h)
          · exact absurd rfl hne
          · exact h
      | cons c ps =>
        by_cases hc : c = ch
        · subst hc
          have hfind : mapFind ((t.insertFrom (c :: rest) pid).children) c
              = some (TrieNode.insertFrom
                (.mk child.children (List.insert pid child.propertyIds)) rest pid) := by
            rw [hins]
            exact mapFind_mapUpdate_self _ _ _ _ hb
          rw [found_cons_of_find_some _ _ _ _ hfind, ih,
            found_cons_of_find_some t c ps child hb]
          cases ps with
          | nil =>
            rw [found_nil, found_nil]
            show _ ∨ x ∈ List.insert pid child.propertyIds ↔ _
            simp [List.cons_prefix_cons, List.nil_prefix, List.mem_insert_iff]
          | cons q qs =>
            have hkids : (TrieNode.mk child.children
                (List.insert pid child.propertyIds)).found (q :: qs)
                = child.found (q :: qs) := by
              rcases hb2 : mapFind child.children q with _ | child4
              · rw [found_cons_of_find_none _ _ _ (by exact hb2),
                  found_cons_of_find_none _ _ _ hb2]
              · rw [found_cons_of_find_some _ _ _ _ (by exact hb2),
                  found_cons_of_find_some _ _ _ _ hb2]
            rw [hkids]
            simp [List.cons_prefix_cons]
        · have hfind : mapFind ((t.insertFrom (ch :: rest) pid).children) c
              = mapFind t.children c := by
            rw [hins]
            exact mapFind_mapUpdate_ne _ _ _ _ hc
          have heq : (t.insertFrom (ch :: rest) pid).found (c :: ps)
              = t.found (c :: ps) := by
            rcases hb2 : mapFind t.children c with _ | child3
            · rw [found_cons_of_find_none _ _ _ (by rw [hfind]; exact hb2),
                found_cons_of_find_none _ _ _ hb2]
            · rw [found_cons_of_find_some _ _ _ _ (by rw [hfind]; exact hb2),
                found_cons_of_find_some _ _ _ _ hb2]
          rw [heq]
          simp [List.cons_prefix_cons, hc]

/-- One `addProperty`: the inserted ids at a path. -/
theorem mem_found_addProperty (d : PropertyDoc) (tr : SearchTrie)
    (p : List Char) (x : String) :
    x ∈ (tr.addProperty d).root.found p ↔
      (x = d.id ∧ p ≠ [] ∧ ∃ w ∈ docWords d, 2 < w.length ∧ p <+: w.data) ∨
      x ∈ tr.root.found p := by
  have hgen : ∀ (ws : List String) (t : SearchTrie),
      x ∈ ((ws.foldl
          (fun tr2 w => if w.length > 2 then tr2.insertWord w d.id else tr2)
          t).root.found p) ↔
        (x = d.id ∧ p ≠ [] ∧ ∃ w ∈ ws, 2 < w.length ∧ p <+: w.data) ∨
        x ∈ t.root.found p := by
    intro ws
    induction ws with
    | nil =>
      intro t
      simp
    | cons w rest ihw =>
      intro t
      rw [List.foldl_cons, ihw]
      by_cases hw : w.length > 2
      · rw [if_pos hw]
        rw [show (t.insertWord w d.id).root = t.root.insertFrom w.data d.id
          from rfl]
        rw [mem_found_insertFrom]
        constructor
        · rintro (⟨hx, hne, w2, hw2, hl, hp⟩ | (⟨hx, hne, hp⟩ | h))
          · exact Or.inl ⟨hx, hne, w2, List.mem_cons_of_mem _ hw2, hl, hp⟩
          · exact Or.inl ⟨hx, hne, w, List.mem_cons_self _ _, hw, hp⟩
          · exact Or.inr h
        · rintro (⟨hx, hne, w2, hw2, hl, hp⟩ | h)
          · rcases List.mem_cons.mp hw2 with rfl | hw3
            · exact Or.inr (Or.inl ⟨hx, hne, hp⟩)
            · exact Or.inl ⟨hx, hne, w2, hw3, hl, hp⟩
          · exact Or.inr (Or.inr h)
      · rw [if_neg hw]
        constructor
        · rintro (⟨hx, hne, w2, hw2, hl, hp⟩ | h)
          · exact Or.inl ⟨hx, hne, w2, List.mem_cons_of_mem _ hw2, hl, hp⟩
          · exact Or.inr h
        · rintro (⟨hx, hne, w2, hw2, hl, hp⟩ | h)
          · rcases List.mem_cons.mp hw2 with rfl | hw3
            · exact absurd hl hw
            · exact Or.inl ⟨hx, hne, w2, hw3, hl, hp⟩
          · exact Or.inr h
  exact hgen (docWords d) tr

/-- Folding `addProperty` over a document list. -/
theorem mem_found_addAll (docs : List PropertyDoc) (tr : SearchTrie)
    (p : List Char) (x : String) :
    x ∈ (tr.addAll docs).root.found p ↔
      (p ≠ [] ∧ ∃ d ∈ docs, x = d.id ∧
        ∃ w ∈ docWords d, 2 < w.length ∧ p <+: w.data) ∨
      x ∈ tr.root.found p := by
  induction docs generalizing tr with
  | nil =>
    simp [SearchTrie.addAll]
  | cons d rest ihd =>
    show x ∈ ((tr.addProperty d).addAll rest).root.found p ↔ _
    rw [ihd, mem_found_addProperty]
    constructor
    · rintro (⟨hne, d2, hd2, hx, hww⟩ | (⟨hx, hne, hww⟩ | h))
      · exact Or.inl ⟨hne, d2, List.mem_cons_of_mem _ hd2, hx, hww⟩
      · exact Or.inl ⟨hne, d, List.mem_cons_self _ _, hx, hww⟩
      · exact Or.inr h
    · rintro (⟨hne, d2, hd2, hx, hww⟩ | h)
      · rcases List.mem_cons.mp hd2 with rfl | hd3
        · exact Or.inr (Or.inl ⟨hx, hne, hww⟩)
        · exact Or.inl ⟨hne, d2, hd3, hx, hww⟩
      · exact Or.inr (Or.inr h)

/-- C8: over any sequence of addProperty calls from the empty trie, a prefix
shorter than 2 characters searches to the empty set; otherwise `search p`
contains an id x iff some added document has id x and one of its tokens — a
whitespace-split word of its lowercased title, its lowercased city, or a
lowercased amenity string — has length > 2 and starts with the lowercased p. -/
theorem C8_trie_search (docs : List PropertyDoc) (p : String) (x : String) :
    (p.length < 2 → (SearchTrie.empty.addAll docs).search p = []) ∧
    (2 ≤ p.length →
      (x ∈ (SearchTrie.empty.addAll docs).search p ↔
        ∃ d ∈ docs, x = d.id ∧ ∃ w ∈ docWords d, 2 < w.length ∧
          (lowerStr p).data <+: w.data)) := by
  constructor
  · intro h
    unfold SearchTrie.search
    rw [if_pos h]
  · intro h
    unfold SearchTrie.search
    rw [if_neg (by omega)]
    rw [mem_found_addAll]
    have hlen : (lowerStr p).data.length = p.length := by
      show (p.data.map Char.toLower).length = p.length
      rw [List.length_map]
      rfl
    have hne : (lowerStr p).data ≠ [] := by
      intro hnil
      rw [hnil] at hlen
      simp at hlen
      omega
    have hemp : SearchTrie.empty.root.found ((lowerStr p).data) = [] := by
      cases hd : (lowerStr p).data with
      | nil => exact absurd hd hne
      | cons c cs => exact found_cons_of_find_none _ _ _ rfl
    rw [hemp]
    simp [hne]

/-- C8 witness: index {id: "p1", title: "Modern House", city: "Mbeya",
amenities: ["Parking"]}; search "mod" contains "p1" (via the token "modern"). -/
theorem C8_witness :
    ("p1" : String) ∈ (SearchTrie.empty.addAll
      [⟨"p1", "Modern House", "Mbeya", ["Parking"]⟩]).search "mod" :=
  ((C8_trie_search [⟨"p1", "Modern House", "Mbeya", ["Parking"]⟩]
      "mod" "p1").2 (by decide)).mpr
    ⟨⟨"p1", "Modern House", "Mbeya", ["Parking"]⟩, by decide, rfl, by decide⟩

/-! ### PriorityQueue lemmas and claim C9 -/

theorem listSwap_length {E : Type} (l : List E) (i j : Nat) :
    (listSwap l i j).length = l.length := by
  unfold listSwap
  rcases hx : l[i]? with _ | a <;> rcases hy : l[j]? with _ | b <;> simp

theorem listSwap_getElem? {E : Type} (l : List E) (i j : Nat) (a b : E)
    (ha : l[i]? = some a) (hb : l[j]? = some b) (k : Nat) :
    (listSwap l i j)[k]? =
      if k = i then some b else if k = j then some a else l[k]? := by
  have hi : i < l.length := (List.getElem?_eq_some.mp ha).1
  have hj : j < l.length := (List.getElem?_eq_some.mp hb).1
  unfold listSwap
  rw [ha, hb, List.getElem?_set]
  by_cases hkj : k = j
  · subst hkj
    rw [if_pos rfl, if_pos (by rw [List.length_set]; exact hj)]
    by_cases hki : k = i
    · subst hki
      rw [if_pos rfl]
      rw [ha] at hb
      injection hb with hab
      rw [hab]
    · rw [if_neg hki, if_pos rfl]
  · rw [if_neg (fun he => hkj he.symm), List.getElem?_set]
    by_cases hki : k = i
    · subst hki
      rw [if_pos rfl, if_pos hi, if_pos rfl]
    · rw [if_neg (fun he => hki he.symm), if_neg hki, if_neg hkj]

theorem ms_set {E : Type} (l : List E) (j : Nat) (a b : E)
    (hb : l[j]? = some b) :
    (b ::ₘ (l.set j a : Multiset E)) = a ::ₘ (l : Multiset E) := by
  induction l generalizing j with
  | nil => simp at hb
  | cons e rest ih =>
    cases j with
    | zero =>
      have hbe : e = b := by simpa using hb
      subst hbe
      show e ::ₘ ((a :: rest : List E) : Multiset E)
        = a ::ₘ ((e :: rest : List E) : Multiset E)
      rw [← Multiset.cons_coe, ← Multiset.cons_coe]
      exact Multiset.cons_swap _ _ _
    | succ n =>
      have hbn : rest[n]? = some b := by simpa using hb
      have ihb := ih n hbn
      show b ::ₘ ((e :: rest.set n a : List E) : Multiset E)
        = a ::ₘ ((e :: rest : List E) : Multiset E)
      rw [← Multiset.cons_coe, ← Multiset.cons_coe, Multiset.cons_swap b e, ihb,
        Multiset.cons_swap e a]

theorem listSwap_multiset {E : Type} (l : List E) (i j : Nat) :
    ((listSwap l i j : List E) : Multiset E) = (l : Multiset E) := by
  rcases hx : l[i]? with _ | a
  · unfold listSwap
    rw [hx]
  · rcases hy : l[j]? with _ | b
    · unfold listSwap
      rw [hx, hy]
    · have hswap : listSwap l i j = (l.set i b).set j a := by
        unfold listSwap
        rw [hx, hy]
      rw [hswap]
      by_cases hij : i = j
      · subst hij
        rw [hx] at hy
        injection hy with hab
        subst hab
        have h1 := ms_set (l.set i a) i a a (by
          rw [List.getElem?_set, if_pos rfl, if_pos (List.getElem?_eq_some.mp hx).1])
        have h2 := ms_set l i a a hx
        rw [h2] at h1
        exact (Multiset.cons_inj_right a).mp h1
      · have hb2 : (l.set i b)[j]? = some b := by
          rw [List.getElem?_set, if_neg hij]
          exact hy
        have h1 := ms_set (l.set i b) j a b hb2
        have h2 := ms_set l i b a hx
        rw [h2] at h1
        exact (Multiset.cons_inj_right b).mp h1

theorem isHeap_le_root (l : List (HeapEntry T P)) (hh : IsHeap l) (r : HeapEntry T P)
    (hr : l[0]? = some r) :
    ∀ (j : Nat) (a : HeapEntry T P), l[j]? = some a → a.priority ≤ r.priority := by
  intro j
  induction j using Nat.strong_induction_on with
  | _ j ih =>
    intro a ha
    cases Nat.eq_zero_or_pos j with
    | inl h0 =>
      subst h0
      rw [hr] at ha
      injection ha with h
      rw [h]
    | inr hpos =>
      have hjl : j < l.length := (List.getElem?_eq_some.mp ha).1
      have hpl : (j - 1) / 2 < l.length := by omega
      have hb := List.getElem?_eq_getElem hpl
      have h1 := hh j a (l[(j - 1) / 2]) hpos ha hb
      have h2 := ih ((j - 1) / 2) (by omega) (l[(j - 1) / 2]) hb
      exact le_trans h1 h2

theorem isHeap_mem_le_root (l : List (HeapEntry T P)) (hh : IsHeap l)
    (r : HeapEntry T P) (hr : l[0]? = some r) :
    ∀ f ∈ l, f.priority ≤ r.priority := by
  intro f hf
  rcases List.mem_iff_getElem?.mp hf with ⟨n, hn⟩
  exact isHeap_le_root l hh r hr n f hn

theorem isHeap_heapifyUp (i : Nat) (l : List (HeapEntry T P)) (hok : UpOk l i) :
    IsHeap (heapifyUp l i) := by
  induction i using Nat.strong_induction_on generalizing l with
  | _ i ih =>
    rw [heapifyUp]
    split
    case isTrue h =>
      have h2 : i < l.length := h.2
      have hp : (i - 1) / 2 < l.length := by omega
      dsimp only
      split
      case isTrue hge =>
        intro j a b hj ha hb
        by_cases hji : j = i
        · subst hji
          have hpj : (j - 1) / 2 < l.length := by omega
          rw [List.getElem?_eq_getElem h2] at ha
          rw [List.getElem?_eq_getElem hpj] at hb
          injection ha with ha2
          injection hb with hb2
          rw [← ha2, ← hb2]
          exact hge
        · exact hok.1 j a b hj hji ha hb
      case isFalse hlt =>
        apply ih ((i - 1) / 2) (by omega)
        have hswap := listSwap_getElem? l ((i - 1) / 2) i (l[(i - 1) / 2]) (l[i])
          (List.getElem?_eq_getElem hp) (List.getElem?_eq_getElem h2)
        have hlti : (l[(i - 1) / 2]).priority < (l[i]).priority := lt_of_not_ge hlt
        constructor
        · intro j a b hj hjp ha hb
          rw [hswap j] at ha
          rw [hswap ((j - 1) / 2)] at hb
          by_cases hji : j = i
          · subst hji
            rw [if_neg (by omega), if_pos rfl] at ha
            rw [if_pos rfl] at hb
            injection ha with ha2
            injection hb with hb2
            rw [← ha2, ← hb2]
            exact le_of_lt hlti
          · rw [if_neg hjp, if_neg hji] at ha
            by_cases hbp : (j - 1) / 2 = (i - 1) / 2
            · rw [if_pos hbp] at hb
              injection hb with hb2
              have h1 := hok.1 j a (l[(i - 1) / 2]) hj hji ha
                (by rw [hbp]; exact List.getElem?_eq_getElem hp)
              rw [← hb2]
              exact le_trans h1 (le_of_lt hlti)
            · rw [if_neg hbp] at hb
              by_cases hbi : (j - 1) / 2 = i
              · rw [if_pos hbi] at hb
                injection hb with hb2
                have h1 := hok.2 j a (l[(i - 1) / 2]) hbi h.1 (by omega) ha
                  (List.getElem?_eq_getElem hp)
                rw [← hb2]
                exact h1
              · rw [if_neg hbi] at hb
                exact hok.1 j a b hj hji ha hb
        · intro c a b hcp hp0 hc0 ha hb
          rw [hswap c] at ha
          rw [hswap (((i - 1) / 2 - 1) / 2)] at hb
          rw [if_neg (by omega), if_neg (by omega)] at hb
          by_cases hci : c = i
          · subst hci
            rw [if_neg (by omega), if_pos rfl] at ha
            injection ha with ha2
            have h1 := hok.1 ((c - 1) / 2) (l[(c - 1) / 2]) b hp0 (by omega)
              (List.getElem?_eq_getElem hp) hb
            rw [← ha2]
            exact h1
          · rw [if_neg (by omega), if_neg hci] at ha
            have h1 := hok.1 c a (l[(i - 1) / 2]) hc0 hci ha
              (by rw [hcp]; exact List.getElem?_eq_getElem hp)
            have h2b := hok.1 ((i - 1) / 2) (l[(i - 1) / 2]) b hp0 (by omega)
              (List.getElem?_eq_getElem hp) hb
            exact le_trans h1 h2b
    case isFalse h =>
      intro j a b hj ha hb
      by_cases hji : j = i
      · subst hji
        have hlen : j < l.length := (List.getElem?_eq_some.mp ha).1
        omega
      · exact hok.1 j a b hj hji ha hb

theorem maxChildIdx_spec (l : List (HeapEntry T P)) (i : Nat)
    (h : 2 * i + 1 < l.length) :
    (maxChildIdx l i h = 2 * i + 1 ∨ maxChildIdx l i h = 2 * i + 2) ∧
    maxChildIdx l i h < l.length ∧
    (∀ (c : Nat) (a am : HeapEntry T P), (c - 1) / 2 = i → 0 < c →
      l[c]? = some a → l[maxChildIdx l i h]? = some am →
      a.priority ≤ am.priority) := by
  unfold maxChildIdx
  split
  case isTrue hr =>
    split
    case isTrue hcmp =>
      refine ⟨Or.inr rfl, hr, ?_⟩
      intro c a am hcp hc0 ha ham
      rw [List.getElem?_eq_getElem hr] at ham
      injection ham with ham2
      have hc : c = 2 * i + 1 ∨ c = 2 * i + 2 := by omega
      rcases hc with rfl | rfl
      · rw [List.getElem?_eq_getElem (show 2 * i + 1 < l.length by omega)] at ha
        injection ha with ha2
        rw [← ha2, ← ham2]
        exact le_of_lt hcmp
      · rw [List.getElem?_eq_getElem hr] at ha
        injection ha with ha2
        rw [← ha2, ← ham2]
    case isFalse hcmp =>
      refine ⟨Or.inl rfl, by omega, ?_⟩
      intro c a am hcp hc0 ha ham
      rw [List.getElem?_eq_getElem (show 2 * i + 1 < l.length by omega)] at ham
      injection ham with ham2
      have hc : c = 2 * i + 1 ∨ c = 2 * i + 2 := by omega
      rcases hc with rfl | rfl
      · rw [List.getElem?_eq_getElem (show 2 * i + 1 < l.length by omega)] at ha
        injection ha with ha2
        rw [← ha2, ← ham2]
      · rw [List.getElem?_eq_getElem hr] at ha
        injection ha with ha2
        rw [← ha2, ← ham2]
        exact le_of_not_gt hcmp
  case isFalse hr =>
    refine ⟨Or.inl rfl, by omega, ?_⟩
    intro c a am hcp hc0 ha ham
    rw [List.getElem?_eq_getElem (show 2 * i + 1 < l.length by omega)] at ham
    injection ham with ham2
    have hcl : c < l.length := (List.getElem?_eq_some.mp ha).1
    have hc : c = 2 * i + 1 := by omega
    subst hc
    rw [List.getElem?_eq_getElem (show 2 * i + 1 < l.length by omega)] at ha
    injection ha with ha2
    rw [← ha2, ← ham2]

theorem isHeap_heapifyDown (n : Nat) :
    ∀ (l : List (HeapEntry T P)) (i : Nat), l.length - i = n → DownOk l i →
      IsHeap (heapifyDown l i) := by
  induction n using Nat.strong_induction_on with
  | _ n ih =>
    intro l i hn hok
    rw [heapifyDown]
    split
    case isTrue h =>
      have hi : i < l.length := by omega
      have hspec := maxChildIdx_spec l i h
      have hm : maxChildIdx l i h < l.length := hspec.2.1
      dsimp only
      split
      case isTrue hge =>
        intro j a b hj ha hb
        by_cases hpi : (j - 1) / 2 = i
        · have hmax := hspec.2.2 j a (l[maxChildIdx l i h]) hpi hj ha
            (List.getElem?_eq_getElem hm)
          rw [hpi, List.getElem?_eq_getElem hi] at hb
          injection hb with hb2
          rw [← hb2]
          exact le_trans hmax hge
        · exact hok.1 j a b hj hpi ha hb
      case isFalse hlt =>
        have hlen := listSwap_length l i (maxChildIdx l i h)
        have hgt : i < maxChildIdx l i h := by
          rcases hspec.1 with he | he <;> omega
        apply ih (l.length - maxChildIdx l i h) (by omega) _ _ (by rw [hlen])
        have hswap := listSwap_getElem? l i (maxChildIdx l i h) (l[i])
          (l[maxChildIdx l i h]) (List.getElem?_eq_getElem hi)
          (List.getElem?_eq_getElem hm)
        have hlti : (l[i]).priority < (l[maxChildIdx l i h]).priority :=
          lt_of_not_ge hlt
        constructor
        · intro j a b hj hjm ha hb
          rw [hswap j] at ha
          rw [hswap ((j - 1) / 2)] at hb
          by_cases hji : j = i
          · subst hji
            rw [if_pos rfl] at ha
            injection ha with ha2
            rw [if_neg (by omega), if_neg (by omega)] at hb
            have h1 := hok.2 (maxChildIdx l j h) (l[maxChildIdx l j h]) b
              (by rcases hspec.1 with he | he <;> omega) hj (by omega)
              (List.getElem?_eq_getElem hm) hb
            rw [← ha2]
            exact h1
          · by_cases hjm2 : j = maxChildIdx l i h
            · rw [if_neg hji, if_pos hjm2] at ha
              injection ha with ha2
              have hpj : (j - 1) / 2 = i := by
                rcases hspec.1 with he | he <;> omega
              rw [if_pos hpj] at hb
              injection hb with hb2
              rw [← ha2, ← hb2]
              exact le_of_lt hlti
            · rw [if_neg hji, if_neg hjm2] at ha
              by_cases hpi : (j - 1) / 2 = i
              · rw [if_pos hpi] at hb
                injection hb with hb2
                have h1 := hspec.2.2 j a (l[maxChildIdx l i h]) hpi hj ha
                  (List.getElem?_eq_getElem hm)
                rw [← hb2]
                exact h1
              · rw [if_neg hpi, if_neg hjm] at hb
                exact hok.1 j a b hj hpi ha hb
        · intro c a b hcp hm0 hc0 ha hb
          have hpm : (maxChildIdx l i h - 1) / 2 = i := by
            rcases hspec.1 with he | he <;> omega
          rw [hswap c] at ha
          rw [hswap ((maxChildIdx l i h - 1) / 2)] at hb
          rw [hpm] at hb
          rw [if_pos rfl] at hb
          injection hb with hb2
          rw [if_neg (by omega), if_neg (by omega)] at ha
          have h1 := hok.1 c a (l[maxChildIdx l i h]) hc0 (by omega) ha
            (by rw [hcp]; exact List.getElem?_eq_getElem hm)
          rw [← hb2]
          exact h1
    case isFalse h =>
      intro j a b hj ha hb
      by_cases hpi : (j - 1) / 2 = i
      · have hjl : j < l.length := (List.getElem?_eq_some.mp ha).1
        omega
      · exact hok.1 j a b hj hpi ha hb

theorem heapifyUp_multiset (i : Nat) (l : List (HeapEntry T P)) :
    ((heapifyUp l i : List (HeapEntry T P)) : Multiset (HeapEntry T P))
      = (l : Multiset (HeapEntry T P)) := by
  induction i using Nat.strong_induction_on generalizing l with
  | _ i ih =>
    rw [heapifyUp]
    split
    case isTrue h =>
      dsimp only
      split
      · rfl
      · rw [ih ((i - 1) / 2) (by omega), listSwap_multiset]
    case isFalse h => rfl

theorem heapifyDown_multiset (n : Nat) :
    ∀ (l : List (HeapEntry T P)) (i : Nat), l.length - i = n →
      ((heapifyDown l i : List (HeapEntry T P)) : Multiset (HeapEntry T P))
        = (l : Multiset (HeapEntry T P)) := by
  induction n using Nat.strong_induction_on with
  | _ n ih =>
    intro l i hn
    rw [heapifyDown]
    split
    case isTrue h =>
      have hspec := maxChildIdx_spec l i h
      have hm : maxChildIdx l i h < l.length := hspec.2.1
      dsimp only
      split
      · rfl
      · have hlen := listSwap_length l i (maxChildIdx l i h)
        have hgt : i < maxChildIdx l i h := by
          rcases hspec.1 with he | he <;> omega
        rw [ih (l.length - maxChildIdx l i h) (by omega) _ _ (by rw [hlen]),
          listSwap_multiset]
    case isFalse h => rfl

theorem isHeap_empty : IsHeap ([] : List (HeapEntry T P)) := by
  intro j a b hj ha hb
  simp at ha

theorem isHeap_enqueue (q : PriorityQueue T P) (hq : IsHeap q.heap)
    (x : T) (pr : P) : IsHeap (q.enqueue x pr).heap := by
  show IsHeap (heapifyUp (q.heap ++ [HeapEntry.mk x pr])
    ((q.heap ++ [HeapEntry.mk x pr]).length - 1))
  apply isHeap_heapifyUp
  constructor
  · intro j a b hj hji ha hb
    have hjl : j < (q.heap ++ [HeapEntry.mk x pr]).length :=
      (List.getElem?_eq_some.mp ha).1
    have hLlen : (q.heap ++ [HeapEntry.mk x pr]).length = q.heap.length + 1 := by
      simp
    have hjold : j < q.heap.length := by omega
    have hpold : (j - 1) / 2 < q.heap.length := by omega
    rw [List.getElem?_append, if_pos hjold] at ha
    rw [List.getElem?_append, if_pos hpold] at hb
    exact hq j a b hj ha hb
  · intro c a b hcp hi0 hc0 ha hb
    have hcl : c < (q.heap ++ [HeapEntry.mk x pr]).length :=
      (List.getElem?_eq_some.mp ha).1
    have hLlen : (q.heap ++ [HeapEntry.mk x pr]).length = q.heap.length + 1 := by
      simp
    omega

theorem isHeap_enqueueAll (es : List (T × P)) (q : PriorityQueue T P)
    (hq : IsHeap q.heap) : IsHeap (q.enqueueAll es).heap := by
  induction es generalizing q with
  | nil => exact hq
  | cons e rest ih => exact ih (q.enqueue e.1 e.2) (isHeap_enqueue q hq e.1 e.2)

theorem dequeue_fst (q : PriorityQueue T P) (e : HeapEntry T P)
    (rest : List (HeapEntry T P)) (h : q.heap = e :: rest) :
    (q.dequeue).1 = some e.item := by
  obtain ⟨heap⟩ := q
  simp only at h
  subst h
  cases rest with
  | nil => rfl
  | cons r rs => rfl

theorem dequeue_spec (q : PriorityQueue T P) (hq : IsHeap q.heap)
    (e : HeapEntry T P) (rest : List (HeapEntry T P))
    (hshape : q.heap = e :: rest) :
    (q.dequeue).1 = some e.item ∧
    IsHeap (q.dequeue).2.heap ∧
    ((q.dequeue).2.heap : Multiset (HeapEntry T P))
      = (rest : Multiset (HeapEntry T P)) := by
  obtain ⟨heap⟩ := q
  simp only at hshape hq
  subst hshape
  refine ⟨dequeue_fst ⟨e :: rest⟩ e rest rfl, ?_⟩
  cases rest with
  | nil =>
    constructor
    · exact isHeap_empty
    · rfl
  | cons r rs =>
    have hne : (r :: rs : List (HeapEntry T P)) ≠ [] := by simp
    have hL : (PriorityQueue.dequeue ⟨e :: r :: rs⟩).2.heap
        = heapifyDown (((e :: r :: rs).dropLast).set 0
            ((e :: r :: rs).getLast (by simp))) 0 := rfl
    set L2 := ((e :: r :: rs).dropLast).set 0 ((e :: r :: rs).getLast (by simp))
      with hL2
    have hlast : (e :: r :: rs).getLast (by simp) = (r :: rs).getLast hne :=
      List.getLast_cons hne
    have hL2eq : L2 = (r :: rs).getLast hne :: (r :: rs).dropLast := by
      rw [hL2, hlast]
      rfl
    have hL2len : L2.length = rs.length + 1 := by
      rw [hL2, List.length_set, List.length_dropLast]
      simp
    constructor
    · rw [hL]
      apply isHeap_heapifyDown L2.length L2 0 (by omega)
      constructor
      · intro j a b hj hpj ha hb
        have hjl : j < L2.length := (List.getElem?_eq_some.mp ha).1
        rw [hL2len] at hjl
        have hjd : j < (e :: r :: rs).dropLast.length := by
          rw [List.length_dropLast]
          simp
          omega
        have hpd : (j - 1) / 2 < (e :: r :: rs).dropLast.length := by
          rw [List.length_dropLast]
          simp
          omega
        have hjf : j < (e :: r :: rs).length := by
          simp
          omega
        have hpf : (j - 1) / 2 < (e :: r :: rs).length := by
          simp
          omega
        have hja : L2[j]? = (e :: r :: rs)[j]? := by
          rw [hL2, List.getElem?_set, if_neg (by omega),
            List.getElem?_eq_getElem hjd, List.getElem?_eq_getElem hjf,
            List.getElem_dropLast]
        have hpb : L2[(j - 1) / 2]? = (e :: r :: rs)[(j - 1) / 2]? := by
          rw [hL2, List.getElem?_set, if_neg (by omega),
            List.getElem?_eq_getElem hpd, List.getElem?_eq_getElem hpf,
            List.getElem_dropLast]
        rw [hja] at ha
        rw [hpb] at hb
        exact hq j a b hj ha hb
      · intro c a b hcp hi0 hc0 ha hb
        omega
    · rw [hL]
      rw [heapifyDown_multiset L2.length L2 0 (by omega)]
      rw [hL2eq]
      have hsplit : (r :: rs : List (HeapEntry T P))
          = (r :: rs).dropLast ++ [(r :: rs).getLast hne] :=
        (List.dropLast_append_getLast hne).symm
      calc ((((r :: rs).getLast hne :: (r :: rs).dropLast : List (HeapEntry T P))) :
            Multiset (HeapEntry T P))
          = (r :: rs).getLast hne ::ₘ ((r :: rs).dropLast : Multiset (HeapEntry T P)) := by
            rw [← Multiset.cons_coe]
        _ = ((r :: rs).dropLast : Multiset (HeapEntry T P))
            + { (r :: rs).getLast hne } := by
            rw [← Multiset.singleton_add, add_comm]
        _ = (((r :: rs).dropLast ++ [(r :: rs).getLast hne] : List (HeapEntry T P)) :
            Multiset (HeapEntry T P)) := by
            rw [← Multiset.coe_add]
            rfl
        _ = ((r :: rs : List (HeapEntry T P)) : Multiset (HeapEntry T P)) := by
            rw [← hsplit]

/-- C9: the heap invariant holds after every sequence of enqueue calls from
the empty queue; on a non-empty queue, dequeue removes and returns the root
item, whose priority is maximal among all stored elements, preserves the heap
invariant, and leaves exactly the remaining multiset of entries — so the next
dequeue returns an item of priority no larger, and draining the queue yields
priorities in non-increasing order; dequeue and peek on an empty queue return
`none` (an explicit absent signal, not an exception). -/
theorem C9_priority_queue (T P : Type) [LinearOrder P] (es : List (T × P))
    (q : PriorityQueue T P) (hq : IsHeap q.heap)
    (e1 : HeapEntry T P) (rest : List (HeapEntry T P))
    (hshape : q.heap = e1 :: rest)
    (e2 : HeapEntry T P) (r2 : List (HeapEntry T P))
    (hshape2 : (q.dequeue).2.heap = e2 :: r2) :
    IsHeap ((PriorityQueue.empty T P).enqueueAll es).heap ∧
    (q.dequeue).1 = some e1.item ∧
    (∀ f ∈ q.heap, f.priority ≤ e1.priority) ∧
    IsHeap (q.dequeue).2.heap ∧
    ((q.dequeue).2.heap : Multiset (HeapEntry T P))
      = (rest : Multiset (HeapEntry T P)) ∧
    e2.priority ≤ e1.priority ∧
    ((q.dequeue).2.dequeue).1 = some e2.item ∧
    ((PriorityQueue.empty T P).dequeue).1 = none ∧
    (PriorityQueue.empty T P).peek = none := by
  have hd := dequeue_spec q hq e1 rest hshape
  have hroot : q.heap[0]? = some e1 := by
    rw [hshape]
    simp
  refine ⟨isHeap_enqueueAll es _ isHeap_empty, hd.1,
    isHeap_mem_le_root q.heap hq e1 hroot, hd.2.1, hd.2.2, ?_,
    dequeue_fst _ e2 r2 hshape2, rfl, rfl⟩
  have hmem : e2 ∈ (q.dequeue).2.heap := by
    rw [hshape2]
    exact List.mem_cons_self _ _
  have hmem2 : e2 ∈ rest := by
    rw [← Multiset.mem_coe, hd.2.2, Multiset.mem_coe] at hmem
    exact hmem
  exact isHeap_mem_le_root q.heap hq e1 hroot e2
    (by rw [hshape]; exact List.mem_cons_of_mem _ hmem2)

/-- A concrete 3-entry max-heap used by the C9 witness. -/
theorem C9_witness_hq :
    IsHeap ([⟨10, 5⟩, ⟨20, 3⟩, ⟨30, 4⟩] : List (HeapEntry Nat Int)) := by
  intro j a b hj ha hb
  have hjl : j < 3 := by
    have := (List.getElem?_eq_some.mp ha).1
    simpa using this
  interval_cases j
  · simp at ha hb
    subst ha
    subst hb
    decide
  · simp at ha hb
    subst ha
    subst hb
    decide

/-- C9 witness: the queue [(10,pri 5), (20,pri 3), (30,pri 4)]; dequeue
returns item 10 (priority 5, the max), the reheapified rest is a heap holding
{(20,3), (30,4)}, and the next dequeue returns item 30 with priority 4 ≤ 5. -/
theorem C9_witness :
    IsHeap ((PriorityQueue.empty Nat Int).enqueueAll [(10, 5)]).heap ∧
    ((⟨[⟨10, 5⟩, ⟨20, 3⟩, ⟨30, 4⟩]⟩ : PriorityQueue Nat Int).dequeue).1
      = some (HeapEntry.mk (10 : Nat) (5 : Int)).item ∧
    (∀ f ∈ (⟨[⟨10, 5⟩, ⟨20, 3⟩, ⟨30, 4⟩]⟩ : PriorityQueue Nat Int).heap,
      f.priority ≤ (HeapEntry.mk (10 : Nat) (5 : Int)).priority) ∧
    IsHeap ((⟨[⟨10, 5⟩, ⟨20, 3⟩, ⟨30, 4⟩]⟩ :
      PriorityQueue Nat Int).dequeue).2.heap ∧
    (((⟨[⟨10, 5⟩, ⟨20, 3⟩, ⟨30, 4⟩]⟩ : PriorityQueue Nat Int).dequeue).2.heap :
      Multiset (HeapEntry Nat Int))
      = (([⟨20, 3⟩, ⟨30, 4⟩] : List (HeapEntry Nat Int)) :
        Multiset (HeapEntry Nat Int)) ∧
    (HeapEntry.mk (30 : Nat) (4 : Int)).priority
      ≤ (HeapEntry.mk (10 : Nat) (5 : Int)).priority ∧
    (((⟨[⟨10, 5⟩, ⟨20, 3⟩, ⟨30, 4⟩]⟩ :
      PriorityQueue Nat Int).dequeue).2.dequeue).1
      = some (HeapEntry.mk (30 : Nat) (4 : Int)).item ∧
    ((PriorityQueue.empty Nat Int).dequeue).1 = none ∧
    (PriorityQueue.empty Nat Int).peek = none :=
  C9_priority_queue Nat Int [(10, 5)]
    ⟨[⟨10, 5⟩, ⟨20, 3⟩, ⟨30, 4⟩]⟩ C9_witness_hq
    ⟨10, 5⟩ [⟨20, 3⟩, ⟨30, 4⟩] rfl
    ⟨30, 4⟩ [⟨20, 3⟩]
    (by simp [PriorityQueue.dequeue, heapifyDown, maxChildIdx, listSwap])

end Nyumba
